import Mathlib

/-!
Verification of `notion_clean_all.py`, a utility that renames hash-suffixed
Notion-export image folders to sequential "lecture NN" names and rewrites the
links inside companion markdown documents.

Strings are modelled as `List Char` (Python text is a sequence of code
points).  Python library functions used by the script (`str.split`,
`str.rstrip`, `str.strip`, `str.replace`, `urllib.parse.quote` and `unquote`,
`re` matching for the two fixed patterns, `pathlib` path splitting) are
embedded as executable Lean functions on `List Char`, restricted to the
fragment the script exercises:

* whitespace is the ASCII whitespace set recognised by `str.split()`
  (full Unicode whitespace is not modelled);
* `unquote` decodes maximal runs of percent escapes as UTF-8; the exact
  replacement-character granularity Python uses for invalid byte sequences is
  approximated (one replacement character per undecodable leading byte) —
  only the valid fragment is exercised by the theorems below.
-/

namespace NotionClean

/-- Shorthand turning a string literal into the `List Char` it denotes. -/
def S (s : String) : List Char := s.toList

/-- Whitespace characters recognised by `str.split()` / `str.strip()`
(ASCII fragment). -/
def isPySpace (c : Char) : Bool :=
  c = ' ' || c = '\t' || c = '\n' || c = '\x0d' || c = '\x0b' || c = '\x0c'

/-- Hexadecimal digit, case-insensitive, as matched by `[0-9a-f]` under
`re.I`. -/
def isHexCI (c : Char) : Bool :=
  ('0' ≤ c && c ≤ '9') || ('a' ≤ c && c ≤ 'f') || ('A' ≤ c && c ≤ 'F')

/-- `HEX32.fullmatch(s)`: the whole string is exactly 32 hex characters
(the `$` in the pattern is redundant under `fullmatch`). -/
def hex32Full (s : List Char) : Bool :=
  s.length = 32 && s.all isHexCI

/-- Helper for `HEX32.search`: the last 32 characters of `s` exist and are
all hex. -/
def endsHex32 (s : List Char) : Bool :=
  32 ≤ s.length && (s.drop (s.length - 32)).all isHexCI

/-- `HEX32.search(s)` for the pattern `[0-9a-f]{32}$` (no `re.M`): a match
must end at the end of the string, or just before a newline that is the last
character. -/
def hex32Search (s : List Char) : Bool :=
  endsHex32 s || (s.getLast? = some '\n' && endsHex32 s.dropLast)

/-- Python `name.split()`: split on runs of whitespace, dropping empty
pieces. -/
def splitWS (s : List Char) : List (List Char) :=
  (s.splitOnP isPySpace).filter (fun t => !t.isEmpty)

/-- Python `s.rstrip(bad)`: drop trailing characters satisfying `bad`. -/
def rstripSet (bad : Char → Bool) (s : List Char) : List Char :=
  (s.reverse.dropWhile bad).reverse

/-- The `.rstrip(" |_")` of `strip_hash`. -/
def rstripSep (s : List Char) : List Char :=
  rstripSet (fun c => c = ' ' || c = '|' || c = '_') s

/-- Python `s.strip()` (whitespace at both ends). -/
def stripWS (s : List Char) : List Char :=
  rstripSet isPySpace (s.dropWhile isPySpace)

/-- `strip_hash(name)` from the source: split on whitespace; if the last
token is exactly 32 hex characters, drop it, rejoin the remaining tokens
with single spaces and trim trailing space/pipe/underscore; otherwise return
the name unchanged.  (The `parts[-1] or ""` in the source is the identity:
tokens produced by `split()` are never empty.) -/
def strip_hash (name : List Char) : List Char :=
  match (splitWS name).getLast? with
  | some t =>
    if hex32Full t then rstripSep (List.intercalate [' '] (splitWS name).dropLast)
    else name
  | none => name

/-- `remove_brackets(s)` from the source:
`s.replace("[", "").replace("]", "").strip()`. -/
def remove_brackets (s : List Char) : List Char :=
  stripWS (s.filter (fun c => c ≠ '[' && c ≠ ']'))

/-- Does the last whitespace token of `name` exist and consist of exactly 32
hex characters?  This is the guard of the stripping branch of
`strip_hash`. -/
def lastTokenHex (name : List Char) : Bool :=
  match (splitWS name).getLast? with
  | some t => hex32Full t
  | none => false

/-! ### Generic list lemmas used by the normalizer proofs -/

theorem mem_rstripSet {bad : Char → Bool} {s : List Char} {c : Char}
    (h : c ∈ rstripSet bad s) : c ∈ s := by
  unfold rstripSet at h
  rw [List.mem_reverse] at h
  have := (List.dropWhile_sublist (l := s.reverse) bad).mem h
  rwa [List.mem_reverse] at this

theorem mem_stripWS {s : List Char} {c : Char} (h : c ∈ stripWS s) : c ∈ s := by
  unfold stripWS at h
  exact (List.dropWhile_sublist (l := s) isPySpace).mem (mem_rstripSet h)

theorem dropWhile_dropWhile {p : Char → Bool} (l : List Char) :
    List.dropWhile p (List.dropWhile p l) = List.dropWhile p l := by
  cases h : List.dropWhile p l with
  | nil => rfl
  | cons a as =>
    have hhead := List.head?_dropWhile_not p l
    rw [h] at hhead
    simp only [List.head?_cons] at hhead
    simp [List.dropWhile_cons, hhead]

theorem rstripSet_pre {bad : Char → Bool} (l : List Char) :
    rstripSet bad l <+: l := by
  have h := List.dropWhile_suffix (l := l.reverse) bad
  have h2 := List.reverse_prefix.mpr h
  rwa [List.reverse_reverse] at h2

theorem rstripSet_rstripSet {bad : Char → Bool} (l : List Char) :
    rstripSet bad (rstripSet bad l) = rstripSet bad l := by
  unfold rstripSet
  rw [List.reverse_reverse, dropWhile_dropWhile]

theorem stripWS_idem (s : List Char) : stripWS (stripWS s) = stripWS s := by
  unfold stripWS
  have hdw : List.dropWhile isPySpace (rstripSet isPySpace
      (List.dropWhile isPySpace s)) = rstripSet isPySpace (List.dropWhile isPySpace s) := by
    cases h : rstripSet isPySpace (List.dropWhile isPySpace s) with
    | nil => rfl
    | cons a as =>
      have hpre := @rstripSet_pre isPySpace (List.dropWhile isPySpace s)
      rw [h] at hpre
      obtain ⟨t, ht⟩ := hpre
      have hhead := List.head?_dropWhile_not isPySpace s
      rw [← ht] at hhead
      simp only [List.cons_append, List.head?_cons] at hhead
      simp [List.dropWhile_cons, hhead]
  rw [hdw, rstripSet_rstripSet]

/-! ### Claim C8 -/

/-- C8: for every string `s`, `remove_brackets(s)` contains no `[` and no `]`
characters, and `remove_brackets` is idempotent. -/
theorem C8_remove_brackets_clean_idem (s : List Char) :
    ((remove_brackets s).all (fun c => c ≠ '[' && c ≠ ']')) = true ∧
    remove_brackets (remove_brackets s) = remove_brackets s := by
  have hclean : ∀ c ∈ remove_brackets s, (c ≠ '[' && c ≠ ']') = true := by
    intro c hc
    have hm : c ∈ s.filter (fun c => c ≠ '[' && c ≠ ']') := mem_stripWS hc
    exact (List.mem_filter.mp hm).2
  constructor
  · exact List.all_eq_true.mpr hclean
  · show stripWS (List.filter _ (remove_brackets s)) = remove_brackets s
    rw [List.filter_eq_self.mpr hclean]
    exact stripWS_idem _

/-! ### Lemmas about `splitWS` -/

theorem splitWS_nil : splitWS [] = [] := rfl

theorem splitWS_ws_append {w : List Char} (hw : ∀ c ∈ w, isPySpace c = true)
    (s : List Char) : splitWS (w ++ s) = splitWS s := by
  induction w with
  | nil => rfl
  | cons c cs ih =>
    have hc : isPySpace c = true := hw c (List.mem_cons_self c cs)
    have hcs : ∀ c ∈ cs, isPySpace c = true := fun x hx => hw x (List.mem_cons_of_mem c hx)
    show splitWS (c :: (cs ++ s)) = splitWS s
    unfold splitWS
    rw [List.splitOnP_cons, if_pos hc]
    simpa [splitWS] using ih hcs

theorem splitWS_tok_append {t : List Char} (ht : t ≠ [])
    (htok : ∀ c ∈ t, isPySpace c = false) {s : List Char}
    (hs : s = [] ∨ ∃ c s2, s = c :: s2 ∧ isPySpace c = true) :
    splitWS (t ++ s) = t :: splitWS s := by
  rcases hs with rfl | ⟨c, s2, rfl, hc⟩
  · rw [List.append_nil]
    unfold splitWS
    rw [List.splitOnP_eq_single]
    · simp [ht]
    · intro x hx
      simp [htok x hx]
  · unfold splitWS
    rw [List.splitOnP_first _ _ (fun x hx => by simp [htok x hx]) c hc s2]
    rw [List.splitOnP_cons, if_pos hc]
    simp [ht]

/-! ### Claim C5 -/

/-- C5 (counterexample): `strip_hash` is not idempotent.  On a name made of
two 32-hex tokens, the first application drops the second token, and the
second application drops the remaining one. -/
theorem C5_counterexample :
    strip_hash (strip_hash
        (S "aaaaaaaaaaaaaaaaaaaaaaaaaaaaaaaa bbbbbbbbbbbbbbbbbbbbbbbbbbbbbbbb")) ≠
      strip_hash
        (S "aaaaaaaaaaaaaaaaaaaaaaaaaaaaaaaa bbbbbbbbbbbbbbbbbbbbbbbbbbbbbbbb") := by
  decide

/-- C5 (amended): for every folder name whose last whitespace token is a
32-hex token, `strip_hash` drops exactly that token, rejoins the remaining
tokens with single spaces, and trims trailing space/pipe/underscore; names
without such a final token are unchanged; and `strip_hash` is idempotent on
every name whose stripped form does not itself end in a 32-hex token (it is
not idempotent in general, see the counterexample). -/
theorem C5_strip_hash_amended (f : List Char) :
    (lastTokenHex f = false → strip_hash f = f) ∧
    (lastTokenHex f = true → ∃ ts t, splitWS f = ts ++ [t] ∧ hex32Full t = true ∧
      strip_hash f = rstripSep (List.intercalate [' '] ts)) ∧
    (lastTokenHex (strip_hash f) = false → strip_hash (strip_hash f) = strip_hash f) := by
  have hbranch : ∀ g : List Char, lastTokenHex g = false → strip_hash g = g := by
    intro g hg
    unfold lastTokenHex at hg
    unfold strip_hash
    cases h : (splitWS g).getLast? with
    | none => rfl
    | some t =>
      rw [h] at hg
      simp only at hg
      simp [hg]
  refine ⟨hbranch f, ?_, hbranch (strip_hash f)⟩
  intro hf
  unfold lastTokenHex at hf
  cases h : (splitWS f).getLast? with
  | none => rw [h] at hf; exact absurd hf (by simp)
  | some t =>
    rw [h] at hf
    simp only at hf
    obtain ⟨ts, hts⟩ := List.getLast?_eq_some_iff.mp h
    refine ⟨ts, t, hts, hf, ?_⟩
    unfold strip_hash
    rw [h, hts]
    simp [hf, List.dropLast_concat]

/-- C5 (witness): the amended theorem applied to a concrete name with one
hex token, exercising both the existential description and the conditional
idempotence. -/
theorem C5_witness :
    (∃ ts t, splitWS (S "Intro 0123456789abcdef0123456789abcdef") = ts ++ [t] ∧
      hex32Full t = true ∧
      strip_hash (S "Intro 0123456789abcdef0123456789abcdef") =
        rstripSep (List.intercalate [' '] ts)) ∧
    strip_hash (strip_hash (S "Intro 0123456789abcdef0123456789abcdef")) =
      strip_hash (S "Intro 0123456789abcdef0123456789abcdef") := by
  refine ⟨(C5_strip_hash_amended _).2.1 (by decide),
    (C5_strip_hash_amended _).2.2 (by decide)⟩

/-! ### Claim C10 -/

/-- Interleaving of an optional leading whitespace run and a list of
(token, following-whitespace-run) pairs; every whitespace-structured string
has this shape. -/
def interleave (w0 : List Char) (ps : List (List Char × List Char)) : List Char :=
  w0 ++ ps.flatMap (fun tw => tw.1 ++ tw.2)

/-- Well-formedness of an interleaving: tokens are nonempty and free of
whitespace, the runs are whitespace, and every run between two tokens is
nonempty. -/
def interOK : List (List Char × List Char) → Prop
  | [] => True
  | (t, w) :: rest =>
    t ≠ [] ∧ (∀ c ∈ t, isPySpace c = false) ∧ (∀ c ∈ w, isPySpace c = true) ∧
    (rest ≠ [] → w ≠ []) ∧ interOK rest

theorem splitWS_flat {ps : List (List Char × List Char)} (hok : interOK ps) :
    splitWS (ps.flatMap (fun tw => tw.1 ++ tw.2)) = ps.map Prod.fst := by
  induction ps with
  | nil => rfl
  | cons tw rest ih =>
    obtain ⟨t, w⟩ := tw
    obtain ⟨ht, htok, hwsp, hmid, hrest⟩ := hok
    rw [List.flatMap_cons, List.append_assoc]
    have hshape : w ++ rest.flatMap (fun tw => tw.1 ++ tw.2) = [] ∨
        ∃ c s2, w ++ rest.flatMap (fun tw => tw.1 ++ tw.2) = c :: s2 ∧
          isPySpace c = true := by
      cases hw : w with
      | cons c w2 =>
        exact Or.inr ⟨c, w2 ++ rest.flatMap (fun tw => tw.1 ++ tw.2), by simp,
          hwsp c (by rw [hw]; exact List.mem_cons_self c w2)⟩
      | nil =>
        cases hr : rest with
        | nil => subst hw hr; exact Or.inl rfl
        | cons p rest2 =>
          exact absurd hw (hmid (by rw [hr]; exact List.cons_ne_nil p rest2))
    rw [splitWS_tok_append ht htok hshape, splitWS_ws_append hwsp, ih hrest]
    rfl

theorem splitWS_interleave {ps : List (List Char × List Char)} (hok : interOK ps)
    (w0 : List Char) (hw0 : ∀ c ∈ w0, isPySpace c = true) :
    splitWS (interleave w0 ps) = ps.map Prod.fst := by
  unfold interleave
  rw [splitWS_ws_append hw0, splitWS_flat hok]

/-- C10: on a name whose last whitespace token is a 32-hex token,
`strip_hash` collapses every internal whitespace run to a single space:
the result depends only on the tokens, not on the runs between them. -/
theorem C10_whitespace_collapse (w0 : List Char) (ps : List (List Char × List Char))
    (hw0 : ∀ c ∈ w0, isPySpace c = true) (hok : interOK ps)
    (hlast : ∃ pre t w, ps = pre ++ [(t, w)] ∧ hex32Full t = true) :
    strip_hash (interleave w0 ps) =
      rstripSep (List.intercalate [' '] ((ps.map Prod.fst).dropLast)) := by
  obtain ⟨pre, t, w, hps, hhex⟩ := hlast
  have hsplit := splitWS_interleave hok w0 hw0
  unfold strip_hash
  rw [hsplit]
  have hlast2 : (ps.map Prod.fst).getLast? = some t := by
    rw [hps, List.map_append]
    simp
  rw [hlast2]
  simp [hhex]

/-- C10 (witness): a doubled space and a tab both collapse to single
spaces once the trailing hex token is removed. -/
theorem C10_witness :
    strip_hash (interleave []
        [(S "a", S "  "), (S "b", S "\t"), (S "cccccccccccccccccccccccccccccccc", S "")]) =
      rstripSep (List.intercalate [' ']
        (([(S "a", S "  "), (S "b", S "\t"),
           (S "cccccccccccccccccccccccccccccccc", S "")].map Prod.fst).dropLast)) :=
  C10_whitespace_collapse _ _
    (by intro c hc; exact absurd hc (List.not_mem_nil c))
    ⟨by decide, by decide, by decide, by decide,
      ⟨by decide, by decide, by decide, by decide,
        ⟨by decide, by decide, by decide, by decide, trivial⟩⟩⟩
    ⟨[(S "a", S "  "), (S "b", S "\t")], S "cccccccccccccccccccccccccccccccc", S "", rfl, by decide⟩

/-! ### Orchestrator candidate selection (claim C3)

`main()` does `folders = [p for p in sorted(root.iterdir()) if p.is_dir()
and HEX32.search(p.name or "")]` followed by `enumerate(folders, start=1)`.
Immediate children of the root are modelled as entries carrying a name and
an is-directory flag; `sorted` on paths that share the parent directory
compares the name strings code point by code point, which is the
lexicographic order on `List Char`. -/

/-- An immediate child of the scanned root directory. -/
structure DirEntry where
  name : List Char
  isDir : Bool
deriving DecidableEq

instance : DecidableRel (fun a b : DirEntry => a.name ≤ b.name) :=
  fun a b => inferInstanceAs (Decidable (a.name ≤ b.name))

instance : IsTotal DirEntry (fun a b => a.name ≤ b.name) :=
  ⟨fun a b => le_total a.name b.name⟩

instance : IsTrans DirEntry (fun a b => a.name ≤ b.name) :=
  ⟨fun _ _ _ => le_trans⟩

/-- The candidate folder list computed by `main`: sorted directory entries,
filtered to directories whose name matches `HEX32.search`. -/
def main_folders (es : List DirEntry) : List DirEntry :=
  (List.insertionSort (fun a b => a.name ≤ b.name) es).filter
    (fun e => e.isDir && hex32Search e.name)

/-- `enumerate(folders, start=1)` of `main`. -/
def main_indexed (es : List DirEntry) : List (Nat × DirEntry) :=
  List.enumFrom 1 (main_folders es)

/-- Modelled from the claim wording only (for comparison with the code):
the name contains a 32-hex-character token anywhere, not only at the end. -/
def hex32ContainsAnywhere (n : List Char) : Bool :=
  (List.range (n.length + 1)).any (fun i => hex32Full ((n.drop i).take 32))

theorem endsHex32_iff (n : List Char) :
    endsHex32 n = true ↔
      ∃ pre t, n = pre ++ t ∧ t.length = 32 ∧ (∀ c ∈ t, isHexCI c = true) := by
  constructor
  · intro h
    unfold endsHex32 at h
    rw [Bool.and_eq_true] at h
    obtain ⟨hlen, hall⟩ := h
    rw [decide_eq_true_iff] at hlen
    refine ⟨n.take (n.length - 32), n.drop (n.length - 32),
      (List.take_append_drop _ n).symm, ?_, List.all_eq_true.mp hall⟩
    rw [List.length_drop]
    omega
  · rintro ⟨pre, t, rfl, hlen, hall⟩
    unfold endsHex32
    rw [Bool.and_eq_true]
    constructor
    · rw [decide_eq_true_iff, List.length_append]
      omega
    · have hd : (pre ++ t).length - 32 = pre.length := by
        rw [List.length_append]
        omega
      rw [hd, List.drop_left]
      exact List.all_eq_true.mpr hall

theorem hex32Search_iff (n : List Char) :
    hex32Search n = true ↔
      (∃ pre t, n = pre ++ t ∧ t.length = 32 ∧ (∀ c ∈ t, isHexCI c = true)) ∨
      (∃ pre t, n = pre ++ t ++ ['\n'] ∧ t.length = 32 ∧
        (∀ c ∈ t, isHexCI c = true)) := by
  unfold hex32Search
  rw [Bool.or_eq_true, Bool.and_eq_true]
  constructor
  · rintro (h | ⟨hlast, hends⟩)
    · exact Or.inl ((endsHex32_iff n).mp h)
    · rw [decide_eq_true_iff] at hlast
      obtain ⟨pre, t, hdec, hlen, hall⟩ := (endsHex32_iff n.dropLast).mp hends
      refine Or.inr ⟨pre, t, ?_, hlen, hall⟩
      have := List.dropLast_append_getLast? '\n' hlast
      rw [hdec] at this
      rw [← this, List.append_assoc]
  · rintro (⟨pre, t, rfl, hlen, hall⟩ | ⟨pre, t, rfl, hlen, hall⟩)
    · exact Or.inl ((endsHex32_iff _).mpr ⟨pre, t, rfl, hlen, hall⟩)
    · refine Or.inr ⟨?_, ?_⟩
      · rw [decide_eq_true_iff]
        exact List.getLast?_concat _
      · rw [List.dropLast_concat]
        exact (endsHex32_iff _).mpr ⟨pre, t, rfl, hlen, hall⟩

/-- C3 (counterexample): a directory whose name contains a 32-hex token
anywhere but not at the end is not selected by `main`, refuting the
"anywhere in the name (not only at the end)" reading: the regex
`[0-9a-f]{32}$` used with `re.search` is anchored at the end. -/
theorem C3_counterexample :
    hex32ContainsAnywhere (S "0123456789abcdef0123456789abcdefz") = true ∧
      main_folders [⟨S "0123456789abcdef0123456789abcdefz", true⟩] = [] := by
  decide

/-- C3 (amended): `main` selects as candidates exactly the immediate
subdirectories whose name ends in a 32-hex-character token (a match of
`[0-9a-f]{32}$` ends either at the end of the name or just before a final
newline), and processes them sorted by name with a 1-based index. -/
theorem C3_candidates_amended (es : List DirEntry) :
    ((main_indexed es).map Prod.fst = List.range' 1 (main_folders es).length) ∧
    List.Sorted (fun a b : DirEntry => a.name ≤ b.name) (main_folders es) ∧
    (∀ e : DirEntry, e ∈ main_folders es ↔ e ∈ es ∧ e.isDir = true ∧
      ((∃ pre t, e.name = pre ++ t ∧ t.length = 32 ∧ (∀ c ∈ t, isHexCI c = true)) ∨
       (∃ pre t, e.name = pre ++ t ++ ['\n'] ∧ t.length = 32 ∧
         (∀ c ∈ t, isHexCI c = true)))) := by
  refine ⟨List.enumFrom_map_fst 1 (main_folders es), ?_, ?_⟩
  · exact List.Pairwise.filter _
      (List.sorted_insertionSort (fun a b : DirEntry => a.name ≤ b.name) es)
  · intro e
    unfold main_folders
    rw [List.mem_filter, Bool.and_eq_true,
      (List.perm_insertionSort (fun a b : DirEntry => a.name ≤ b.name) es).mem_iff,
      ← hex32Search_iff]

/-! ### Folder-to-document matching (claim C4)

`find_md_for_folder(parent, folder_name)` lists `parent.glob("*.md")` and
works with the stems of those files.  The glob result is modelled as the
list of candidate stems (in directory order); the matcher only ever reads
`p.stem`, so nothing else of the path is needed. -/

/-- The normalizer `norm` used inside `find_md_for_folder`. -/
def norm (x : List Char) : List Char := remove_brackets (strip_hash x)

/-- Does `pat`, read from the first position, agree with the start of `s`?
(Helper for the Python substring test.) -/
def listHasPre : List Char → List Char → Bool
  | [], _ => true
  | _ :: _, [] => false
  | a :: as, b :: bs => a == b && listHasPre as bs

/-- Python substring containment `pat in s`. -/
def pyIn (pat : List Char) : List Char → Bool
  | [] => pat.isEmpty
  | c :: rest => listHasPre pat (c :: rest) || pyIn pat rest

theorem listHasPre_iff (pat s : List Char) : listHasPre pat s = true ↔ pat <+: s := by
  induction pat generalizing s with
  | nil => simp [listHasPre]
  | cons a as ih =>
    cases s with
    | nil =>
      simp [listHasPre]
    | cons b bs =>
      unfold listHasPre
      rw [Bool.and_eq_true, beq_iff_eq, ih bs, List.cons_prefix_cons]

theorem pyIn_iff (pat s : List Char) : pyIn pat s = true ↔ pat <:+: s := by
  induction s with
  | nil =>
    unfold pyIn
    rw [List.isEmpty_iff]
    constructor
    · intro h; rw [h]
    · intro h; exact List.eq_nil_of_infix_nil h
  | cons c rest ih =>
    unfold pyIn
    rw [Bool.or_eq_true, listHasPre_iff, ih, List.infix_cons_iff]

/-- `find_md_for_folder` from the source, over the stems of the `*.md`
entries of the parent directory. -/
def find_md_for_folder (cands : List (List Char)) (folder_name : List Char) :
    Option (List Char) :=
  if cands.isEmpty then none
  else
    match cands.find? (fun p => norm p == norm folder_name) with
    | some p => some p
    | none =>
      match cands.find? (fun p => pyIn folder_name p || hex32Search p) with
      | some p => some p
      | none => if cands.length = 1 then cands.head? else none

/-- C4: the matcher tries exact normalized-stem match, then
substring-or-trailing-hex fallback, then single-candidate default, in strict
priority order; with no documents it fails, and with at least two documents
none of which is matched by the first two strategies it also fails. -/
theorem C4_matcher_priority (cands : List (List Char)) (folder_name : List Char) :
    (find_md_for_folder [] folder_name = none) ∧
    (2 ≤ cands.length →
      (∀ p ∈ cands, norm p ≠ norm folder_name ∧ ¬(folder_name <:+: p) ∧
        hex32Search p = false) →
      find_md_for_folder cands folder_name = none) ∧
    (∀ p ∈ cands, norm p = norm folder_name →
      ∃ q ∈ cands, find_md_for_folder cands folder_name = some q ∧
        norm q = norm folder_name) ∧
    ((∀ p ∈ cands, norm p ≠ norm folder_name) →
      ∀ p ∈ cands, (pyIn folder_name p || hex32Search p) = true →
      ∃ q ∈ cands, find_md_for_folder cands folder_name = some q ∧
        (pyIn folder_name q || hex32Search q) = true) := by
  refine ⟨rfl, ?_, ?_, ?_⟩
  · intro hlen hnone
    have h1 : cands.find? (fun p => norm p == norm folder_name) = none := by
      rw [List.find?_eq_none]
      intro x hx
      simp only [beq_iff_eq]
      exact fun hc => (hnone x hx).1 hc
    have h2 : cands.find? (fun p => pyIn folder_name p || hex32Search p) = none := by
      rw [List.find?_eq_none]
      intro x hx
      rw [Bool.or_eq_true]
      rintro (hin | hhex)
      · exact (hnone x hx).2.1 ((pyIn_iff _ _).mp hin)
      · rw [(hnone x hx).2.2] at hhex
        exact Bool.false_ne_true hhex
    have hne : cands.isEmpty = false := by
      cases cands with
      | nil => simp at hlen
      | cons a l => rfl
    unfold find_md_for_folder
    rw [hne, h1, h2]
    simp only [Bool.false_eq_true, if_false]
    have : cands.length ≠ 1 := by omega
    simp [this]
  · intro p hp hnorm
    have hsome : (cands.find? (fun p => norm p == norm folder_name)).isSome := by
      rw [List.find?_isSome]
      exact ⟨p, hp, by simp [hnorm]⟩
    obtain ⟨q, hq⟩ := Option.isSome_iff_exists.mp hsome
    refine ⟨q, List.mem_of_find?_eq_some hq, ?_, ?_⟩
    · have hne : cands.isEmpty = false := by
        cases cands with
        | nil => exact absurd hp (List.not_mem_nil p)
        | cons a l => rfl
      unfold find_md_for_folder
      rw [hne, hq]
      simp
    · have := List.find?_some hq
      rwa [beq_iff_eq] at this
  · intro hnoexact p hp hloose
    have h1 : cands.find? (fun p => norm p == norm folder_name) = none := by
      rw [List.find?_eq_none]
      intro x hx
      simp only [beq_iff_eq]
      exact hnoexact x hx
    have hsome : (cands.find? (fun p => pyIn folder_name p || hex32Search p)).isSome := by
      rw [List.find?_isSome]
      exact ⟨p, hp, hloose⟩
    obtain ⟨q, hq⟩ := Option.isSome_iff_exists.mp hsome
    refine ⟨q, List.mem_of_find?_eq_some hq, ?_, ?_⟩
    · have hne : cands.isEmpty = false := by
        cases cands with
        | nil => exact absurd hp (List.not_mem_nil p)
        | cons a l => rfl
      unfold find_md_for_folder
      rw [hne, h1, hq]
      simp
    · have hps := List.find?_some hq
      exact hps

/-- C4 (witness): the priority theorem applied to a concrete directory: an
exact normalized match is returned, and a two-candidate directory with no
signal returns nothing. -/
theorem C4_witness :
    (∃ q ∈ [S "Intro"], find_md_for_folder [S "Intro"]
        (S "Intro 0123456789abcdef0123456789abcdef") = some q ∧
      norm q = norm (S "Intro 0123456789abcdef0123456789abcdef")) ∧
    find_md_for_folder [S "alpha", S "beta"] (S "gamma") = none := by
  constructor
  · exact (C4_matcher_priority [S "Intro"] _).2.2.1 (S "Intro") (by decide) (by decide)
  · refine (C4_matcher_priority [S "alpha", S "beta"] (S "gamma")).2.1 (by decide) ?_
    intro p hp
    rcases List.mem_cons.mp hp with rfl | hp2
    · refine ⟨by decide, ?_, by decide⟩
      intro hinf
      exact absurd ((pyIn_iff _ _).mpr hinf) (by decide)
    · rcases List.mem_cons.mp hp2 with rfl | hp3
      · refine ⟨by decide, ?_, by decide⟩
        intro hinf
        exact absurd ((pyIn_iff _ _).mpr hinf) (by decide)
      · exact absurd hp3 (List.not_mem_nil p)

/-! ### Folder renaming / merging (claim C1)

`rename_folder(src, dst)` in the branch where `dst` already exists walks the
entries of `src`: a subdirectory is `mkdir(exist_ok=True)`-ed on the
destination side and merged recursively, a file is moved only when nothing
exists at the destination name (a colliding file is silently skipped and
therefore stays in `src`), and afterwards `src.rmdir()` is called — which
raises `OSError` if anything was skipped.  `mkdir(exist_ok=True)` on an
existing *file* raises `FileExistsError`.  An exception propagates
immediately, leaving the filesystem in its partially merged state.

Directories are modelled as association lists of named nodes; files carry a
`Nat` payload so that overwriting is observable. -/

/-- A filesystem node: a file with contents, or a directory with entries. -/
inductive Node where
  | file : Nat → Node
  | dir : List (String × Node) → Node

/-- Name lookup among directory entries. -/
def lookupE (n : String) : List (String × Node) → Option Node
  | [] => none
  | (m, e) :: rest => if m = n then some e else lookupE n rest

/-- Replace the entry named `n` (first occurrence) by `e`. -/
def updateE (n : String) (e : Node) : List (String × Node) → List (String × Node)
  | [] => []
  | (m, x) :: rest => if m = n then (m, e) :: rest else (m, x) :: updateE n e rest

/-- The body of `rename_folder(src, dst)` when `dst` exists: process the
entries of `src` in order against the destination entries `dst`.  Returns
`(entries remaining in src, new dst entries, whether an exception escaped)`.
An exception aborts the walk, so the unprocessed tail also remains in
`src`. -/
def mergeEntries : List (String × Node) → List (String × Node) →
    List (String × Node) × List (String × Node) × Bool
  | [], dst => ([], dst, false)
  | (n, Node.file v) :: rest, dst =>
    match lookupE n dst with
    | some _ =>
      let r := mergeEntries rest dst
      ((n, Node.file v) :: r.1, r.2.1, r.2.2)
    | none => mergeEntries rest (dst ++ [(n, Node.file v)])
  | (n, Node.dir es) :: rest, dst =>
    match lookupE n dst with
    | some (Node.file _) => ((n, Node.dir es) :: rest, dst, true)
    | some (Node.dir des) =>
      match mergeEntries es des with
      | (lo, des2, err) =>
        if err || !lo.isEmpty then
          ((n, Node.dir lo) :: rest, updateE n (Node.dir des2) dst, true)
        else mergeEntries rest (updateE n (Node.dir des2) dst)
    | none =>
      match mergeEntries es [] with
      | (lo, des2, err) =>
        if err || !lo.isEmpty then
          ((n, Node.dir lo) :: rest, dst ++ [(n, Node.dir des2)], true)
        else mergeEntries rest (dst ++ [(n, Node.dir des2)])
termination_by src _ => sizeOf src
decreasing_by all_goals simp <;> omega

/-- `rename_folder(src, dst)` for an existing destination: merge, then
`src.rmdir()`, which succeeds only when nothing is left in `src`.  Returns
`(what remains at the source path — none if removed, the new destination
entries, whether the call raised)`. -/
def rename_folder_merge (src dst : List (String × Node)) :
    Option (List (String × Node)) × List (String × Node) × Bool :=
  let r := mergeEntries src dst
  if r.2.2 || !r.1.isEmpty then (some r.1, r.2.1, true) else (none, r.2.1, false)

/-- Fetch the node at a relative path below a directory listing. -/
def fetchE : List (String × Node) → List String → Option Node
  | _, [] => none
  | es, [n] => lookupE n es
  | es, n :: p =>
    match lookupE n es with
    | some (Node.dir ds) => fetchE ds p
    | _ => none

theorem fetchE_nil (p : List String) : fetchE [] p = none := by
  cases p with
  | nil => rfl
  | cons n p2 => cases p2 <;> rfl

theorem lookupE_append_some {n : String} {dst : List (String × Node)} {x : Node}
    (l : List (String × Node)) (h : lookupE n dst = some x) :
    lookupE n (dst ++ l) = some x := by
  induction dst with
  | nil => exact absurd h (by simp [lookupE])
  | cons a rest ih =>
    obtain ⟨m, e⟩ := a
    simp only [lookupE] at h ⊢
    by_cases hm : m = n
    · simpa [hm] using h
    · rw [if_neg hm] at h ⊢
      exact ih h

theorem lookupE_append_none {n : String} {dst : List (String × Node)}
    (l : List (String × Node)) (h : lookupE n dst = none) :
    lookupE n (dst ++ l) = lookupE n l := by
  induction dst with
  | nil => rfl
  | cons a rest ih =>
    obtain ⟨m, e⟩ := a
    simp only [lookupE] at h ⊢
    by_cases hm : m = n
    · rw [if_pos hm] at h; exact Option.noConfusion h
    · rw [if_neg hm] at h ⊢
      exact ih h

theorem lookupE_updateE_self {n : String} {e : Node} {dst : List (String × Node)}
    (h : (lookupE n dst).isSome) : lookupE n (updateE n e dst) = some e := by
  induction dst with
  | nil => simp [lookupE] at h
  | cons a rest ih =>
    obtain ⟨m, x⟩ := a
    simp only [updateE]
    by_cases hm : m = n
    · rw [if_pos hm]
      simp only [lookupE]
      rw [if_pos hm]
    · rw [if_neg hm]
      simp only [lookupE] at h ⊢
      rw [if_neg hm] at h ⊢
      exact ih h

theorem lookupE_updateE_ne {n m : String} {e : Node} {dst : List (String × Node)}
    (h : m ≠ n) : lookupE m (updateE n e dst) = lookupE m dst := by
  induction dst with
  | nil => rfl
  | cons a rest ih =>
    obtain ⟨k, x⟩ := a
    simp only [updateE]
    by_cases hk : k = n
    · rw [if_pos hk]
      simp only [lookupE]
      have : ¬ k = m := by rw [hk]; exact fun hc => h hc.symm
      rw [if_neg this, if_neg this]
    · rw [if_neg hk]
      simp only [lookupE]
      by_cases hkm : k = m
      · rw [if_pos hkm, if_pos hkm]
      · rw [if_neg hkm, if_neg hkm]
        exact ih

theorem fetchE_append {dst l : List (String × Node)} {p : List String} {v : Nat}
    (h : fetchE dst p = some (Node.file v)) :
    fetchE (dst ++ l) p = some (Node.file v) := by
  cases p with
  | nil => exact absurd h (by simp [fetchE])
  | cons n p2 =>
    cases p2 with
    | nil =>
      simp only [fetchE] at h ⊢
      exact lookupE_append_some l h
    | cons n2 p3 =>
      simp only [fetchE] at h ⊢
      cases hl : lookupE n dst with
      | none => rw [hl] at h; exact absurd h (by simp)
      | some x =>
        rw [hl] at h
        rw [lookupE_append_some l hl]
        exact h

theorem fetchE_updateE {dst : List (String × Node)} {n : String}
    {des des2 : List (String × Node)} {p : List String} {v : Nat}
    (hl : lookupE n dst = some (Node.dir des))
    (hpres : ∀ q v2, fetchE des q = some (Node.file v2) →
      fetchE des2 q = some (Node.file v2))
    (h : fetchE dst p = some (Node.file v)) :
    fetchE (updateE n (Node.dir des2) dst) p = some (Node.file v) := by
  cases p with
  | nil => exact absurd h (by simp [fetchE])
  | cons m p2 =>
    cases p2 with
    | nil =>
      simp only [fetchE] at h ⊢
      by_cases hm : m = n
      · subst hm
        rw [hl] at h
        exact absurd h (by simp)
      · rw [lookupE_updateE_ne hm]
        exact h
    | cons m2 p3 =>
      simp only [fetchE] at h ⊢
      by_cases hm : m = n
      · subst hm
        rw [hl] at h
        rw [lookupE_updateE_self (by rw [hl]; rfl)]
        exact hpres _ _ h
      · rw [lookupE_updateE_ne hm]
        exact h

theorem mergeEntries_nil (dst : List (String × Node)) :
    mergeEntries [] dst = ([], dst, false) := by
  rw [mergeEntries]

theorem mergeEntries_file_hit {n : String} {dst : List (String × Node)} {val : Node}
    (v : Nat) (rest : List (String × Node)) (hl : lookupE n dst = some val) :
    mergeEntries ((n, Node.file v) :: rest) dst =
      ((n, Node.file v) :: (mergeEntries rest dst).1, (mergeEntries rest dst).2.1,
        (mergeEntries rest dst).2.2) := by
  rw [mergeEntries, hl]

theorem mergeEntries_file_miss {n : String} {dst : List (String × Node)}
    (v : Nat) (rest : List (String × Node)) (hl : lookupE n dst = none) :
    mergeEntries ((n, Node.file v) :: rest) dst =
      mergeEntries rest (dst ++ [(n, Node.file v)]) := by
  rw [mergeEntries, hl]

theorem mergeEntries_dir_on_file {n : String} {dst : List (String × Node)} {w : Nat}
    (es rest : List (String × Node)) (hl : lookupE n dst = some (Node.file w)) :
    mergeEntries ((n, Node.dir es) :: rest) dst =
      ((n, Node.dir es) :: rest, dst, true) := by
  rw [mergeEntries, hl]

theorem mergeEntries_dir_dir_err {n : String} {dst des : List (String × Node)}
    {lo des2 : List (String × Node)} {err : Bool}
    (es rest : List (String × Node)) (hl : lookupE n dst = some (Node.dir des))
    (heq : mergeEntries es des = (lo, des2, err))
    (hcond : (err || !lo.isEmpty) = true) :
    mergeEntries ((n, Node.dir es) :: rest) dst =
      ((n, Node.dir lo) :: rest, updateE n (Node.dir des2) dst, true) := by
  rw [mergeEntries, hl]
  simp only [heq, hcond, if_true]

theorem mergeEntries_dir_dir_ok {n : String} {dst des : List (String × Node)}
    {lo des2 : List (String × Node)} {err : Bool}
    (es rest : List (String × Node)) (hl : lookupE n dst = some (Node.dir des))
    (heq : mergeEntries es des = (lo, des2, err))
    (hcond : ¬(err || !lo.isEmpty) = true) :
    mergeEntries ((n, Node.dir es) :: rest) dst =
      mergeEntries rest (updateE n (Node.dir des2) dst) := by
  rw [mergeEntries, hl]
  simp only [heq]
  simp [hcond]

theorem mergeEntries_dir_new_err {n : String} {dst : List (String × Node)}
    {lo des2 : List (String × Node)} {err : Bool}
    (es rest : List (String × Node)) (hl : lookupE n dst = none)
    (heq : mergeEntries es [] = (lo, des2, err))
    (hcond : (err || !lo.isEmpty) = true) :
    mergeEntries ((n, Node.dir es) :: rest) dst =
      ((n, Node.dir lo) :: rest, dst ++ [(n, Node.dir des2)], true) := by
  rw [mergeEntries, hl]
  simp only [heq, hcond, if_true]

theorem mergeEntries_dir_new_ok {n : String} {dst : List (String × Node)}
    {lo des2 : List (String × Node)} {err : Bool}
    (es rest : List (String × Node)) (hl : lookupE n dst = none)
    (heq : mergeEntries es [] = (lo, des2, err))
    (hcond : ¬(err || !lo.isEmpty) = true) :
    mergeEntries ((n, Node.dir es) :: rest) dst =
      mergeEntries rest (dst ++ [(n, Node.dir des2)]) := by
  rw [mergeEntries, hl]
  simp only [heq]
  simp [hcond]

theorem merge_preserves (src dst : List (String × Node)) :
    ∀ p v, fetchE dst p = some (Node.file v) →
      fetchE (mergeEntries src dst).2.1 p = some (Node.file v) := by
  induction src, dst using mergeEntries.induct with
  | case1 dst =>
    intro p v h
    rw [mergeEntries_nil]
    exact h
  | case2 n v2 rest dst val hl ih =>
    intro p v h
    rw [mergeEntries_file_hit v2 rest hl]
    exact ih p v h
  | case3 n v2 rest dst hl ih =>
    intro p v h
    rw [mergeEntries_file_miss v2 rest hl]
    exact ih p v (fetchE_append h)
  | case4 n es rest dst w hl =>
    intro p v h
    rw [mergeEntries_dir_on_file es rest hl]
    exact h
  | case5 n es rest dst des hl lo des2 err heq hcond ihes =>
    intro p v h
    rw [mergeEntries_dir_dir_err es rest hl heq hcond]
    have hpres : ∀ q v2, fetchE des q = some (Node.file v2) →
        fetchE des2 q = some (Node.file v2) := by
      intro q v2 hq
      have := ihes q v2 hq
      rwa [heq] at this
    exact fetchE_updateE hl hpres h
  | case6 n es rest dst des hl lo des2 err heq hcond ihes ihrest =>
    intro p v h
    rw [mergeEntries_dir_dir_ok es rest hl heq hcond]
    have hpres : ∀ q v2, fetchE des q = some (Node.file v2) →
        fetchE des2 q = some (Node.file v2) := by
      intro q v2 hq
      have := ihes q v2 hq
      rwa [heq] at this
    exact ihrest p v (fetchE_updateE hl hpres h)
  | case7 n es rest dst hl lo des2 err heq hcond ihes =>
    intro p v h
    rw [mergeEntries_dir_new_err es rest hl heq hcond]
    exact fetchE_append h
  | case8 n es rest dst hl lo des2 err heq hcond ihes ihrest =>
    intro p v h
    rw [mergeEntries_dir_new_ok es rest hl heq hcond]
    exact ihrest p v (fetchE_append h)

theorem merge_moves (src dst : List (String × Node)) :
    (mergeEntries src dst).2.2 = false → (mergeEntries src dst).1 = [] →
    ∀ p v, fetchE src p = some (Node.file v) →
      fetchE (mergeEntries src dst).2.1 p = some (Node.file v) := by
  induction src, dst using mergeEntries.induct with
  | case1 dst =>
    intro _ _ p v h
    rw [fetchE_nil] at h
    exact Option.noConfusion h
  | case2 n v2 rest dst val hl ih =>
    rw [mergeEntries_file_hit v2 rest hl]
    intro _ hleft
    exact absurd hleft (List.cons_ne_nil _ _)
  | case3 n v2 rest dst hl ih =>
    rw [mergeEntries_file_miss v2 rest hl]
    intro herr hleft p v h
    cases p with
    | nil => exact absurd h (by simp [fetchE])
    | cons m p2 =>
      by_cases hm : m = n
      · subst hm
        cases p2 with
        | nil =>
          simp [fetchE, lookupE] at h
          subst h
          have hbase : fetchE (dst ++ [(m, Node.file v2)]) [m] = some (Node.file v2) := by
            simp only [fetchE]
            rw [lookupE_append_none _ hl]
            simp [lookupE]
          exact merge_preserves rest _ [m] v2 hbase
        | cons m2 p3 =>
          simp [fetchE, lookupE] at h
      · cases p2 with
        | nil =>
          simp only [fetchE, lookupE] at h
          rw [if_neg (fun hc => hm hc.symm)] at h
          exact ih herr hleft [m] v (by simp only [fetchE]; exact h)
        | cons m2 p3 =>
          simp only [fetchE, lookupE] at h
          rw [if_neg (fun hc => hm hc.symm)] at h
          exact ih herr hleft (m :: m2 :: p3) v (by simp only [fetchE]; exact h)
  | case4 n es rest dst w hl =>
    rw [mergeEntries_dir_on_file es rest hl]
    intro herr
    exact absurd herr (by simp)
  | case5 n es rest dst des hl lo des2 err heq hcond ihes =>
    rw [mergeEntries_dir_dir_err es rest hl heq hcond]
    intro herr
    exact absurd herr (by simp)
  | case6 n es rest dst des hl lo des2 err heq hcond ihes ihrest =>
    rw [mergeEntries_dir_dir_ok es rest hl heq hcond]
    intro herr hleft p v h
    have hok : err = false ∧ lo = [] := by
      cases err with
      | false =>
        refine ⟨rfl, ?_⟩
        cases lo with
        | nil => rfl
        | cons a l => simp at hcond
      | true => simp at hcond
    have hmoved : ∀ q v2, fetchE es q = some (Node.file v2) →
        fetchE des2 q = some (Node.file v2) := by
      intro q v2 hq
      have := ihes (by rw [heq]; exact hok.1) (by rw [heq]; exact hok.2) q v2 hq
      rwa [heq] at this
    cases p with
    | nil => exact absurd h (by simp [fetchE])
    | cons m p2 =>
      by_cases hm : m = n
      · subst hm
        cases p2 with
        | nil =>
          simp [fetchE, lookupE] at h
        | cons m2 p3 =>
          simp only [fetchE] at h
          rw [show lookupE m ((m, Node.dir es) :: rest) = some (Node.dir es) by
            simp [lookupE]] at h
          have hstep : fetchE (updateE m (Node.dir des2) dst) (m :: m2 :: p3) =
              some (Node.file v) := by
            simp only [fetchE]
            rw [lookupE_updateE_self (by rw [hl]; rfl)]
            exact hmoved (m2 :: p3) v h
          exact merge_preserves rest _ _ v hstep
      · have htail : fetchE rest (m :: p2) = some (Node.file v) := by
          cases p2 with
          | nil =>
            simp only [fetchE, lookupE] at h ⊢
            rw [if_neg (fun hc => hm hc.symm)] at h
            exact h
          | cons m2 p3 =>
            simp only [fetchE, lookupE] at h ⊢
            rw [if_neg (fun hc => hm hc.symm)] at h
            exact h
        exact ihrest herr hleft (m :: p2) v htail
  | case7 n es rest dst hl lo des2 err heq hcond ihes =>
    rw [mergeEntries_dir_new_err es rest hl heq hcond]
    intro herr
    exact absurd herr (by simp)
  | case8 n es rest dst hl lo des2 err heq hcond ihes ihrest =>
    rw [mergeEntries_dir_new_ok es rest hl heq hcond]
    intro herr hleft p v h
    have hok : err = false ∧ lo = [] := by
      cases err with
      | false =>
        refine ⟨rfl, ?_⟩
        cases lo with
        | nil => rfl
        | cons a l => simp at hcond
      | true => simp at hcond
    have hmoved : ∀ q v2, fetchE es q = some (Node.file v2) →
        fetchE des2 q = some (Node.file v2) := by
      intro q v2 hq
      have := ihes (by rw [heq]; exact hok.1) (by rw [heq]; exact hok.2) q v2 hq
      rwa [heq] at this
    cases p with
    | nil => exact absurd h (by simp [fetchE])
    | cons m p2 =>
      by_cases hm : m = n
      · subst hm
        cases p2 with
        | nil =>
          simp [fetchE, lookupE] at h
        | cons m2 p3 =>
          simp only [fetchE] at h
          rw [show lookupE m ((m, Node.dir es) :: rest) = some (Node.dir es) by
            simp [lookupE]] at h
          have hstep : fetchE (dst ++ [(m, Node.dir des2)]) (m :: m2 :: p3) =
              some (Node.file v) := by
            simp only [fetchE]
            rw [lookupE_append_none _ hl]
            simp only [lookupE, if_pos rfl]
            exact hmoved (m2 :: p3) v h
          exact merge_preserves rest _ _ v hstep
      · have htail : fetchE rest (m :: p2) = some (Node.file v) := by
          cases p2 with
          | nil =>
            simp only [fetchE, lookupE] at h ⊢
            rw [if_neg (fun hc => hm hc.symm)] at h
            exact h
          | cons m2 p3 =>
            simp only [fetchE, lookupE] at h ⊢
            rw [if_neg (fun hc => hm hc.symm)] at h
            exact h
        exact ihrest herr hleft (m :: p2) v htail

theorem rename_folder_merge_dst (src dst : List (String × Node)) :
    (rename_folder_merge src dst).2.1 = (mergeEntries src dst).2.1 := by
  unfold rename_folder_merge
  by_cases h : ((mergeEntries src dst).2.2 || !(mergeEntries src dst).1.isEmpty) = true
  · simp [h]
  · simp [h]

/-- C1 (counterexample): merging a source folder holding file `x` into an
existing destination that already holds a file named `x` skips the move,
leaves `x` inside the source, and the final `src.rmdir()` raises, so the
source directory still exists after the call. -/
theorem C1_counterexample :
    (rename_folder_merge [("x", Node.file 1)] [("x", Node.file 2)]).1 ≠ none ∧
    (rename_folder_merge [("x", Node.file 1)] [("x", Node.file 2)]).2.2 = true := by
  have h : rename_folder_merge [("x", Node.file 1)] [("x", Node.file 2)] =
      (some [("x", Node.file 1)], [("x", Node.file 2)], true) := by
    have h1 : mergeEntries [("x", Node.file 1)] [("x", Node.file 2)] =
        ([("x", Node.file 1)], [("x", Node.file 2)], false) := by
      rw [@mergeEntries_file_hit "x" [("x", Node.file 2)] (Node.file 2) 1 []
        (by simp [lookupE])]
      rw [mergeEntries_nil]
    unfold rename_folder_merge
    rw [h1]
    rfl
  rw [h]
  exact ⟨by simp, rfl⟩

/-- C1 (amended): merging source `A` into an existing destination `B` never
deletes or overwrites a file already present in `B`; and whenever the call
completes without raising, `A` no longer exists and every file of `A` is now
under `B` at its old relative path.  When a collision occurs, the colliding
file is skipped, stays under `A`, and the call raises with `A` still
present (see the counterexample). -/
theorem C1_rename_folder_amended (src dst : List (String × Node)) :
    (∀ p v, fetchE dst p = some (Node.file v) →
      fetchE (rename_folder_merge src dst).2.1 p = some (Node.file v)) ∧
    ((rename_folder_merge src dst).2.2 = false →
      (rename_folder_merge src dst).1 = none ∧
      ∀ p v, fetchE src p = some (Node.file v) →
        fetchE (rename_folder_merge src dst).2.1 p = some (Node.file v)) := by
  constructor
  · intro p v h
    rw [rename_folder_merge_dst]
    exact merge_preserves src dst p v h
  · intro herr
    have hcond : ((mergeEntries src dst).2.2 || !(mergeEntries src dst).1.isEmpty) = false := by
      by_contra hc
      rw [Bool.not_eq_false] at hc
      unfold rename_folder_merge at herr
      rw [if_pos hc] at herr
      simp at herr
    have h1 : (mergeEntries src dst).2.2 = false := by
      rcases Bool.or_eq_false_iff.mp hcond with ⟨ha, hb⟩
      exact ha
    have h2 : (mergeEntries src dst).1 = [] := by
      rcases Bool.or_eq_false_iff.mp hcond with ⟨ha, hb⟩
      rw [Bool.not_eq_false'] at hb
      exact List.isEmpty_iff.mp hb
    constructor
    · unfold rename_folder_merge
      rw [if_neg (by rw [hcond]; exact Bool.false_ne_true)]
    · intro p v h
      rw [rename_folder_merge_dst]
      exact merge_moves src dst h1 h2 p v h

/-- C1 (witness): the amended theorem at a concrete pair of directories: the
destination file survives the merge and the source file arrives. -/
theorem C1_witness :
    fetchE (rename_folder_merge [("a", Node.file 5)] [("b", Node.file 7)]).2.1
        ["b"] = some (Node.file 7) ∧
    fetchE (rename_folder_merge [("a", Node.file 5)] [("b", Node.file 7)]).2.1
        ["a"] = some (Node.file 5) := by
  have herr : (rename_folder_merge [("a", Node.file 5)] [("b", Node.file 7)]).2.2 = false := by
    have h1 : mergeEntries [("a", Node.file 5)] [("b", Node.file 7)] =
        ([], [("b", Node.file 7), ("a", Node.file 5)], false) := by
      rw [mergeEntries_file_miss 5 [] (by simp [lookupE])]
      rw [mergeEntries_nil]
      rfl
    unfold rename_folder_merge
    rw [h1]
    rfl
  constructor
  · exact (C1_rename_folder_amended _ _).1 ["b"] 7 (by simp [fetchE, lookupE])
  · exact ((C1_rename_folder_amended _ _).2 herr).2 ["a"] 5 (by simp [fetchE, lookupE])

/-! ### URL encoding and decoding (`urllib.parse.quote` / `unquote`)

`quote(s, safe="/:._-()")` keeps ASCII letters, digits, `_.-~` (the
always-safe set) and the characters of `safe`; every other character is
UTF-8 encoded and each byte written as `%XX` with uppercase hex.
`unquote(s)` turns maximal runs of `%XX` escapes into byte sequences and
decodes them as UTF-8 with `errors="replace"`; everything else passes
through unchanged. -/

/-- Valid scalar values, in `Nat` form. -/
theorem char_valid_ranges (c : Char) :
    c.toNat < 0xD800 ∨ (0xE000 ≤ c.toNat ∧ c.toNat < 0x110000) := by
  have h := c.valid
  unfold UInt32.isValidChar Nat.isValidChar at h
  unfold Char.toNat
  omega

/-- UTF-8 encoding of one character, as byte values. -/
def utf8Bytes (c : Char) : List Nat :=
  if c.toNat < 0x80 then [c.toNat]
  else if c.toNat < 0x800 then [0xC0 + c.toNat / 64, 0x80 + c.toNat % 64]
  else if c.toNat < 0x10000 then
    [0xE0 + c.toNat / 4096, 0x80 + (c.toNat / 64) % 64, 0x80 + c.toNat % 64]
  else
    [0xF0 + c.toNat / 262144, 0x80 + (c.toNat / 4096) % 64,
      0x80 + (c.toNat / 64) % 64, 0x80 + c.toNat % 64]

/-- One step of the UTF-8 decoding automaton on a lead byte: either a
completed ASCII character, or the state `(missing continuation bytes,
value so far, lower bound, upper bound)` of a multi-byte sequence, or an
error. -/
def utf8Lead (b : Nat) : Option (Char ⊕ (Nat × Nat × Nat × Nat)) :=
  if b < 0x80 then some (Sum.inl (Char.ofNat b))
  else if 0xC2 ≤ b ∧ b ≤ 0xDF then some (Sum.inr (1, b - 0xC0, 0x80, 0x7FF))
  else if 0xE0 ≤ b ∧ b ≤ 0xEF then some (Sum.inr (2, b - 0xE0, 0x800, 0xFFFF))
  else if 0xF0 ≤ b ∧ b ≤ 0xF4 then some (Sum.inr (3, b - 0xF0, 0x10000, 0x10FFFF))
  else none

/-- Incremental UTF-8 decoder with replacement on error (Python
`errors="replace"`).  The replacement granularity for invalid sequences is
approximated (one replacement character per rejected sequence); it agrees
with CPython on every valid byte sequence, which is all the theorems below
use. -/
def utf8Aux : Option (Nat × Nat × Nat × Nat) → List Nat → List Char
  | none, [] => []
  | some _, [] => ['�']
  | none, b :: bs =>
    match utf8Lead b with
    | some (Sum.inl c) => c :: utf8Aux none bs
    | some (Sum.inr st) => utf8Aux (some st) bs
    | none => '�' :: utf8Aux none bs
  | some (need, val, lo, hi), b :: bs =>
    if 0x80 ≤ b ∧ b ≤ 0xBF then
      if need = 1 then
        if lo ≤ val * 64 + (b - 0x80) ∧ val * 64 + (b - 0x80) ≤ hi ∧
            ¬(0xD800 ≤ val * 64 + (b - 0x80) ∧ val * 64 + (b - 0x80) ≤ 0xDFFF) then
          Char.ofNat (val * 64 + (b - 0x80)) :: utf8Aux none bs
        else '�' :: utf8Aux none bs
      else utf8Aux (some (need - 1, val * 64 + (b - 0x80), lo, hi)) bs
    else
      '�' :: (match utf8Lead b with
        | some (Sum.inl c) => c :: utf8Aux none bs
        | some (Sum.inr st) => utf8Aux (some st) bs
        | none => '�' :: utf8Aux none bs)

/-- UTF-8 decoding of a byte sequence. -/
def utf8Decode (bs : List Nat) : List Char := utf8Aux none bs

/-- Characters `quote(s, safe="/:._-()")` leaves unescaped: ASCII letters
and digits, the always-safe `_.-~`, and the safe set `/:._-()`. -/
def quoteSafe (c : Char) : Bool :=
  (97 ≤ c.toNat && c.toNat ≤ 122) || (65 ≤ c.toNat && c.toNat ≤ 90) ||
  (48 ≤ c.toNat && c.toNat ≤ 57) ||
  c = '_' || c = '.' || c = '-' || c = '~' ||
  c = '/' || c = ':' || c = '(' || c = ')'

/-- Uppercase hex digit of a value below 16. -/
def hexDigitU (n : Nat) : Char :=
  Char.ofNat (if n < 10 then 48 + n else 55 + n)

/-- One percent escape `%XX`. -/
def escByte (b : Nat) : List Char :=
  ['%', hexDigitU (b / 16), hexDigitU (b % 16)]

/-- `quote` of a single character. -/
def pyQuoteChar (c : Char) : List Char :=
  if quoteSafe c then [c] else (utf8Bytes c).flatMap escByte

/-- `urllib.parse.quote(s, safe="/:._-()")`. -/
def pyQuote (s : List Char) : List Char := s.flatMap pyQuoteChar

/-- Numeric value of a hex digit (both cases), if any. -/
def hexVal? (c : Char) : Option Nat :=
  if 48 ≤ c.toNat && c.toNat ≤ 57 then some (c.toNat - 48)
  else if 97 ≤ c.toNat && c.toNat ≤ 102 then some (c.toNat - 87)
  else if 65 ≤ c.toNat && c.toNat ≤ 70 then some (c.toNat - 55)
  else none

/-- First phase of `unquote`, as a single-pass automaton: turn each `%XX`
escape into a byte token, leaving every other character (and every
unparseable escape) as literal tokens.  The state records a pending `%`
and, possibly, the first hex digit after it. -/
def pctAux : Option (Option Char) → List Char → List (Nat ⊕ Char)
  | none, [] => []
  | some none, [] => [Sum.inr '%']
  | some (some h), [] => [Sum.inr '%', Sum.inr h]
  | none, c :: cs =>
    if c = '%' then pctAux (some none) cs
    else Sum.inr c :: pctAux none cs
  | some none, c :: cs =>
    match hexVal? c with
    | some _ => pctAux (some (some c)) cs
    | none =>
      Sum.inr '%' ::
        (if c = '%' then pctAux (some none) cs else Sum.inr c :: pctAux none cs)
  | some (some h), c :: cs =>
    match hexVal? h, hexVal? c with
    | some a, some b => Sum.inl (a * 16 + b) :: pctAux none cs
    | _, _ =>
      Sum.inr '%' :: Sum.inr h ::
        (if c = '%' then pctAux (some none) cs else Sum.inr c :: pctAux none cs)

/-- Token stream of `unquote`. -/
def pctScan (s : List Char) : List (Nat ⊕ Char) := pctAux none s

/-- Second phase of `unquote`: UTF-8-decode each maximal run of byte tokens
(the accumulator holds the bytes of the current run in reverse). -/
def decodeRunsAux : List Nat → List (Nat ⊕ Char) → List Char
  | acc, [] => utf8Decode acc.reverse
  | acc, Sum.inl b :: rest => decodeRunsAux (b :: acc) rest
  | acc, Sum.inr c :: rest => utf8Decode acc.reverse ++ c :: decodeRunsAux [] rest

/-- `urllib.parse.unquote(s)` (UTF-8, `errors="replace"`). -/
def pyUnquote (s : List Char) : List Char := decodeRunsAux [] (pctScan s)

/-! ### Path splitting (`pathlib.PurePosixPath(...).parts`) -/

/-- Split on `/`, keeping empty pieces. -/
def splitSlash : List Char → List (List Char)
  | [] => [[]]
  | c :: cs =>
    if c = '/' then [] :: splitSlash cs
    else
      match splitSlash cs with
      | seg :: rest => (c :: seg) :: rest
      | [] => [[c]]

/-- The non-root components of a POSIX path: empty segments (from repeated
or trailing slashes) and `.` segments are dropped. -/
def relSegs (s : List Char) : List (List Char) :=
  (splitSlash s).filter (fun seg => !seg.isEmpty && seg != ['.'])

/-- `PurePosixPath(s).parts`: an absolute path contributes a root component
first (`//` is preserved when the path starts with exactly two slashes). -/
def pathParts (s : List Char) : List (List Char) :=
  match s with
  | '/' :: _ =>
    (if (s.takeWhile (fun c => c = '/')).length = 2 then ['/', '/'] else ['/']) ::
      relSegs s
  | _ => relSegs s

/-! ### `rewrite_path` from `replace_links` -/

/-- `rewrite_path(orig_path)`: decode; if no old-name variant occurs in the
raw or the decoded path, return it unchanged; otherwise replace the first
path component by the precomputed relative path, rejoin with `/` and quote
with `safe="/:._-()"`. -/
def rewrite_path (old_dirnames : List (List Char)) (rel_to_imgs : List Char)
    (orig_path : List Char) : List Char :=
  if !(old_dirnames.any (fun od => pyIn od orig_path || pyIn od (pyUnquote orig_path))) then
    orig_path
  else
    match pathParts (pyUnquote orig_path) with
    | [] => orig_path
    | _ :: parts2 => pyQuote (List.intercalate ['/'] (rel_to_imgs :: parts2))

/-! ### Round trip: `unquote (quote s) = s` -/

theorem char_toNat_lt (c : Char) : c.toNat < 0x110000 := by
  rcases char_valid_ranges c with h | ⟨h1, h2⟩ <;> omega

theorem utf8Bytes_lt256 (c : Char) : ∀ b ∈ utf8Bytes c, b < 256 := by
  intro b hb
  have hlt := char_toNat_lt c
  unfold utf8Bytes at hb
  split_ifs at hb with h1 h2 h3 <;> simp only [List.mem_cons, List.mem_singleton,
    List.not_mem_nil, or_false] at hb <;> rcases hb with rfl | hb <;>
    first
    | omega
    | (rcases hb with rfl | hb <;>
        first
        | omega
        | (rcases hb with rfl | hb <;>
            first
            | omega
            | (rcases hb with rfl <;> omega)))

theorem utf8Bytes_ne_nil (c : Char) : utf8Bytes c ≠ [] := by
  unfold utf8Bytes
  split_ifs <;> simp

theorem utf8Aux_enc (c : Char) (bs : List Nat) :
    utf8Aux none (utf8Bytes c ++ bs) = c :: utf8Aux none bs := by
  have hv := char_valid_ranges c
  unfold utf8Bytes
  by_cases h1 : c.toNat < 0x80
  · rw [if_pos h1]
    simp only [List.cons_append, List.nil_append, utf8Aux]
    rw [show utf8Lead c.toNat = some (Sum.inl (Char.ofNat c.toNat)) by
      unfold utf8Lead; rw [if_pos h1]]
    simp [Char.ofNat_toNat]
  · rw [if_neg h1]
    by_cases h2 : c.toNat < 0x800
    · rw [if_pos h2]
      simp only [List.cons_append, List.nil_append, utf8Aux]
      rw [show utf8Lead (0xC0 + c.toNat / 64) =
          some (Sum.inr (1, 0xC0 + c.toNat / 64 - 0xC0, 0x80, 0x7FF)) by
        unfold utf8Lead
        rw [if_neg (by omega), if_pos (by constructor <;> omega)]]
      simp only
      rw [if_pos (show (0x80:Nat) ≤ 0x80 + c.toNat % 64 ∧ 0x80 + c.toNat % 64 ≤ 0xBF by
        constructor <;> omega)]
      rw [if_pos trivial]
      have he : (0xC0 + c.toNat / 64 - 0xC0) * 64 + (0x80 + c.toNat % 64 - 0x80) =
          c.toNat := by omega
      rw [he]
      rw [if_pos (show (0x80:Nat) ≤ c.toNat ∧ c.toNat ≤ 0x7FF ∧
          ¬((0xD800:Nat) ≤ c.toNat ∧ c.toNat ≤ 0xDFFF) by
        refine ⟨by omega, by omega, ?_⟩
        rintro ⟨ha, hb⟩
        omega)]
      rw [Char.ofNat_toNat]
      simp
    · rw [if_neg h2]
      by_cases h3 : c.toNat < 0x10000
      · rw [if_pos h3]
        simp only [List.cons_append, List.nil_append, utf8Aux]
        rw [show utf8Lead (0xE0 + c.toNat / 4096) =
            some (Sum.inr (2, 0xE0 + c.toNat / 4096 - 0xE0, 0x800, 0xFFFF)) by
          unfold utf8Lead
          rw [if_neg (by omega), if_neg (by omega), if_pos (by constructor <;> omega)]]
        simp only
        rw [if_pos (show (0x80:Nat) ≤ 0x80 + c.toNat / 64 % 64 ∧
            0x80 + c.toNat / 64 % 64 ≤ 0xBF by constructor <;> omega)]
        rw [if_neg (show ¬(2 = 1) by omega)]
        rw [if_pos (show (0x80:Nat) ≤ 0x80 + c.toNat % 64 ∧ 0x80 + c.toNat % 64 ≤ 0xBF by
          constructor <;> omega)]
        rw [if_pos trivial]
        have he : ((0xE0 + c.toNat / 4096 - 0xE0) * 64 + (0x80 + c.toNat / 64 % 64 - 0x80)) *
            64 + (0x80 + c.toNat % 64 - 0x80) = c.toNat := by omega
        rw [he]
        rw [if_pos (show (0x800:Nat) ≤ c.toNat ∧ c.toNat ≤ 0xFFFF ∧
            ¬((0xD800:Nat) ≤ c.toNat ∧ c.toNat ≤ 0xDFFF) by
          refine ⟨by omega, by omega, ?_⟩
          rintro ⟨ha, hb⟩
          omega)]
        rw [Char.ofNat_toNat]
        simp
      · rw [if_neg h3]
        simp only [List.cons_append, List.nil_append, utf8Aux]
        rw [show utf8Lead (0xF0 + c.toNat / 262144) =
            some (Sum.inr (3, 0xF0 + c.toNat / 262144 - 0xF0, 0x10000, 0x10FFFF)) by
          unfold utf8Lead
          rw [if_neg (by omega), if_neg (by omega), if_neg (by omega),
            if_pos (by constructor <;> omega)]]
        simp only
        rw [if_pos (show (0x80:Nat) ≤ 0x80 + c.toNat / 4096 % 64 ∧
            0x80 + c.toNat / 4096 % 64 ≤ 0xBF by constructor <;> omega)]
        rw [if_neg (show ¬(3 = 1) by omega)]
        rw [if_pos (show (0x80:Nat) ≤ 0x80 + c.toNat / 64 % 64 ∧
            0x80 + c.toNat / 64 % 64 ≤ 0xBF by constructor <;> omega)]
        rw [if_neg (show ¬(3 - 1 = 1) by omega)]
        rw [if_pos (show (0x80:Nat) ≤ 0x80 + c.toNat % 64 ∧ 0x80 + c.toNat % 64 ≤ 0xBF by
          constructor <;> omega)]
        rw [if_pos trivial]
        have he : (((0xF0 + c.toNat / 262144 - 0xF0) * 64 +
            (0x80 + c.toNat / 4096 % 64 - 0x80)) * 64 +
            (0x80 + c.toNat / 64 % 64 - 0x80)) * 64 + (0x80 + c.toNat % 64 - 0x80) =
            c.toNat := by omega
        rw [he]
        rw [if_pos (show (0x10000:Nat) ≤ c.toNat ∧ c.toNat ≤ 0x10FFFF ∧
            ¬((0xD800:Nat) ≤ c.toNat ∧ c.toNat ≤ 0xDFFF) by
          refine ⟨by omega, by omega, ?_⟩
          rintro ⟨ha, hb⟩
          omega)]
        rw [Char.ofNat_toNat]
        simp
theorem utf8Aux_encList (u : List Char) (bs : List Nat) :
    utf8Aux none (u.flatMap utf8Bytes ++ bs) = u ++ utf8Aux none bs := by
  induction u with
  | nil => rfl
  | cons c cs ih =>
    rw [List.flatMap_cons, List.append_assoc, utf8Aux_enc, ih]
    rfl

theorem utf8Decode_encList (u : List Char) :
    utf8Decode (u.flatMap utf8Bytes) = u := by
  unfold utf8Decode
  have := utf8Aux_encList u []
  rw [List.append_nil] at this
  rw [this]
  simp [utf8Aux]

theorem hexVal?_hexDigitU : ∀ n < 16, hexVal? (hexDigitU n) = some n := by decide

theorem quoteSafe_ne_pct {c : Char} (h : quoteSafe c = true) : c ≠ '%' := by
  rintro rfl
  exact absurd h (by decide)

theorem pctAux_safe {c : Char} (hc : c ≠ '%') (cs : List Char) :
    pctAux none (c :: cs) = Sum.inr c :: pctAux none cs := by
  simp only [pctAux, if_neg hc]

theorem pctAux_esc {b : Nat} (hb : b < 256) (t : List Char) :
    pctAux none (escByte b ++ t) = Sum.inl b :: pctAux none t := by
  show pctAux none ('%' :: hexDigitU (b / 16) :: hexDigitU (b % 16) :: t) = _
  simp only [pctAux, if_pos rfl]
  rw [if_pos trivial]
  rw [hexVal?_hexDigitU (b / 16) (by omega), hexVal?_hexDigitU (b % 16) (by omega)]
  have he : b / 16 * 16 + b % 16 = b := by omega
  simp [he]

theorem pctAux_escList {bs : List Nat} (hbs : ∀ b ∈ bs, b < 256) (t : List Char) :
    pctAux none (bs.flatMap escByte ++ t) = bs.map Sum.inl ++ pctAux none t := by
  induction bs with
  | nil => rfl
  | cons b bs2 ih =>
    rw [List.flatMap_cons, List.append_assoc,
      pctAux_esc (hbs b (List.mem_cons_self b bs2)),
      ih (fun x hx => hbs x (List.mem_cons_of_mem b hx))]
    rfl

/-- Token stream of the quoted form of a string. -/
def encTokens (x : List Char) : List (Nat ⊕ Char) :=
  x.flatMap (fun c =>
    if quoteSafe c then [Sum.inr c] else (utf8Bytes c).map Sum.inl)

theorem pctScan_pyQuote (x : List Char) : pctScan (pyQuote x) = encTokens x := by
  induction x with
  | nil => rfl
  | cons c cs ih =>
    unfold pyQuote at ih ⊢
    rw [List.flatMap_cons]
    unfold encTokens at ih ⊢
    rw [List.flatMap_cons]
    unfold pctScan at ih ⊢
    by_cases hs : quoteSafe c
    · rw [show pyQuoteChar c = [c] by unfold pyQuoteChar; rw [if_pos hs]]
      rw [if_pos hs]
      rw [List.singleton_append, List.singleton_append,
        pctAux_safe (quoteSafe_ne_pct hs), ih]
    · rw [show pyQuoteChar c = (utf8Bytes c).flatMap escByte by
        unfold pyQuoteChar; rw [if_neg hs]]
      rw [if_neg hs]
      rw [pctAux_escList (utf8Bytes_lt256 c), ih]

theorem decodeRunsAux_bytes (bs : List Nat) (acc : List Nat)
    (rest : List (Nat ⊕ Char)) :
    decodeRunsAux acc (bs.map Sum.inl ++ rest) = decodeRunsAux (bs.reverse ++ acc) rest := by
  induction bs generalizing acc with
  | nil => rfl
  | cons b bs2 ih =>
    rw [List.map_cons, List.cons_append]
    show decodeRunsAux (b :: acc) (bs2.map Sum.inl ++ rest) = _
    rw [ih (b :: acc)]
    congr 1
    simp

theorem decodeRunsAux_enc (x : List Char) : ∀ u : List Char,
    decodeRunsAux (u.flatMap utf8Bytes).reverse (encTokens x) = u ++ x := by
  induction x with
  | nil =>
    intro u
    show utf8Decode (u.flatMap utf8Bytes).reverse.reverse = u ++ []
    rw [List.reverse_reverse, utf8Decode_encList, List.append_nil]
  | cons c cs ih =>
    intro u
    rw [show encTokens (c :: cs) =
        (if quoteSafe c then [Sum.inr c] else (utf8Bytes c).map Sum.inl) ++ encTokens cs
      from List.flatMap_cons c cs _]
    by_cases hs : quoteSafe c
    · rw [if_pos hs, List.singleton_append]
      show utf8Decode (u.flatMap utf8Bytes).reverse.reverse ++
          c :: decodeRunsAux [] (encTokens cs) = u ++ c :: cs
      rw [List.reverse_reverse, utf8Decode_encList]
      have h0 := ih []
      simp only [List.flatMap_nil, List.reverse_nil, List.nil_append] at h0
      rw [show decodeRunsAux [] (encTokens cs) = cs from h0]
    · rw [if_neg hs, decodeRunsAux_bytes]
      have hacc : (utf8Bytes c).reverse ++ (u.flatMap utf8Bytes).reverse =
          ((u ++ [c]).flatMap utf8Bytes).reverse := by
        rw [List.flatMap_append, List.reverse_append]
        simp
      rw [hacc, ih (u ++ [c])]
      simp

/-- Quoting and then unquoting restores the original string. -/
theorem pyUnquote_pyQuote (x : List Char) : pyUnquote (pyQuote x) = x := by
  unfold pyUnquote
  rw [pctScan_pyQuote]
  have := decodeRunsAux_enc x []
  simpa using this

/-! ### Claim C6: the encoding performed by `rewrite_path` -/

/-- Uppercase hex digit characters (the alphabet of `%XX` escapes). -/
def isHexUpper (c : Char) : Bool :=
  (48 ≤ c.toNat && c.toNat ≤ 57) || (65 ≤ c.toNat && c.toNat ≤ 70)

theorem quoteSafe_ge128 {c : Char} (h : 128 ≤ c.toNat) : quoteSafe c = false := by
  by_contra hq
  rw [Bool.not_eq_false] at hq
  unfold quoteSafe at hq
  simp only [Bool.or_eq_true, Bool.and_eq_true, decide_eq_true_iff] at hq
  rcases hq with
    ((((((((((⟨a, b⟩ | ⟨a, b⟩) | ⟨a, b⟩) | rfl) | rfl) | rfl) | rfl) | rfl) | rfl) | rfl) | rfl) <;>
    first
    | omega
    | (revert h; decide)

theorem isHexUpper_hexDigitU : ∀ n < 16, isHexUpper (hexDigitU n) = true := by decide

/-- C6: every path the Link Rewriter rewrites is produced by URL-quoting
the rejoined path with `safe="/:._-()"`: the characters `/ : . _ - ( )`
stay unescaped, a space becomes `%20`, and every non-ASCII character is
turned into percent escapes. -/
theorem C6_rewrite_encoding (variants : List (List Char)) (rel p : List Char)
    (hmatch : (variants.any (fun od => pyIn od p || pyIn od (pyUnquote p))) = true)
    (seg0 : List Char) (parts2 : List (List Char))
    (hparts : pathParts (pyUnquote p) = seg0 :: parts2) :
    rewrite_path variants rel p =
      (List.intercalate ['/'] (rel :: parts2)).flatMap pyQuoteChar ∧
    pyQuoteChar ' ' = S "%20" ∧
    pyQuoteChar '/' = ['/'] ∧ pyQuoteChar ':' = [':'] ∧ pyQuoteChar '.' = ['.'] ∧
    pyQuoteChar '_' = ['_'] ∧ pyQuoteChar '-' = ['-'] ∧
    pyQuoteChar '(' = ['('] ∧ pyQuoteChar ')' = [')'] ∧
    (∀ c : Char, 128 ≤ c.toNat →
      ∀ d ∈ pyQuoteChar c, d = '%' ∨ isHexUpper d = true) := by
  constructor
  · unfold rewrite_path
    rw [hmatch, hparts]
    simp [pyQuote]
  refine ⟨by decide, by decide, by decide, by decide, by decide, by decide,
    by decide, by decide, ?_⟩
  · intro c h128 d hd
    unfold pyQuoteChar at hd
    rw [quoteSafe_ge128 h128] at hd
    simp only [Bool.false_eq_true, if_false, List.mem_flatMap] at hd
    obtain ⟨b, hb, hdb⟩ := hd
    have hb256 := utf8Bytes_lt256 c b hb
    unfold escByte at hdb
    simp only [List.mem_cons, List.not_mem_nil, or_false] at hdb
    rcases hdb with rfl | rfl | rfl
    · exact Or.inl rfl
    · exact Or.inr (isHexUpper_hexDigitU (b / 16) (by omega))
    · exact Or.inr (isHexUpper_hexDigitU (b % 16) (by omega))

/-- C6 (witness): a matched link with a space is rewritten with the space
as `%20` and the slash, dot and parentheses untouched. -/
theorem C6_witness :
    rewrite_path [S "old"] (S "lecture 01") (S "old/a (b).png") =
      (List.intercalate ['/'] (S "lecture 01" :: [S "a (b).png"])).flatMap pyQuoteChar ∧
    rewrite_path [S "old"] (S "lecture 01") (S "old/a (b).png") =
      S "lecture%2001/a%20(b).png" :=
  ⟨(C6_rewrite_encoding [S "old"] (S "lecture 01") (S "old/a (b).png") (by decide)
      (S "old") [S "a (b).png"] (by decide)).1, by decide⟩

/-! ### The two link patterns of `replace_links`

The image pattern `!\[[^\]]*\]\(([^)]+)\)` and the generic-link pattern
`(?<!\!)\[[^\]]*\]\(([^)]+)\)` contain no ambiguity: the character classes
exclude the closing delimiters, so matching at a given position is
deterministic.  `re.sub` scans left to right, matching at each position and
skipping one character on failure; the lookbehind of the second pattern
blocks a match whose `[` directly follows `!`.  The replacement used by the
script is `m.group(0).replace(path, rewrite_path(path))` — a global string
replace inside the whole match. -/
/-- Match of the image pattern at the start of the string: returns
(alt text, path, rest after the match). -/
def tryImage (s : List Char) : Option (List Char × List Char × List Char) :=
  match s with
  | c1 :: c2 :: rest =>
    if c1 = '!' ∧ c2 = '[' then
      match rest.dropWhile (fun c => c ≠ ']') with
      | d1 :: d2 :: rest2 =>
        if d1 = ']' ∧ d2 = '(' then
          if (rest2.takeWhile (fun c => c ≠ ')')).isEmpty then none
          else
            match rest2.dropWhile (fun c => c ≠ ')') with
            | e1 :: rest3 =>
              if e1 = ')' then
                some (rest.takeWhile (fun c => c ≠ ']'),
                  rest2.takeWhile (fun c => c ≠ ')'), rest3)
              else none
            | [] => none
        else none
      | _ => none
    else none
  | _ => none

/-- Match of the generic-link pattern (without the lookbehind, which the
scanner enforces) at the start of the string. -/
def tryLink (s : List Char) : Option (List Char × List Char × List Char) :=
  match s with
  | c1 :: rest =>
    if c1 = '[' then
      match rest.dropWhile (fun c => c ≠ ']') with
      | d1 :: d2 :: rest2 =>
        if d1 = ']' ∧ d2 = '(' then
          if (rest2.takeWhile (fun c => c ≠ ')')).isEmpty then none
          else
            match rest2.dropWhile (fun c => c ≠ ')') with
            | e1 :: rest3 =>
              if e1 = ')' then
                some (rest.takeWhile (fun c => c ≠ ']'),
                  rest2.takeWhile (fun c => c ≠ ')'), rest3)
              else none
            | [] => none
        else none
      | _ => none
    else none
  | [] => none

theorem takeWhile_all_append {p : Char → Bool} {u : List Char}
    (hu : ∀ c ∈ u, p c = true) {v : Char} (hv : p v = false) (z : List Char) :
    (u ++ v :: z).takeWhile p = u ∧ (u ++ v :: z).dropWhile p = v :: z := by
  induction u with
  | nil =>
    simp [List.takeWhile_cons, List.dropWhile_cons, hv]
  | cons c u2 ih =>
    have hc := hu c (List.mem_cons_self c u2)
    have ih2 := ih (fun x hx => hu x (List.mem_cons_of_mem c hx))
    simp only [List.cons_append, List.takeWhile_cons, List.dropWhile_cons, hc]
    simp only [if_true]
    exact ⟨by rw [ih2.1], by rw [ih2.2]⟩

theorem tryImage_render {alt path : List Char} (halt : ']' ∉ alt)
    (hpath : path ≠ []) (hpar : ')' ∉ path) (t : List Char) :
    tryImage ('!' :: '[' :: alt ++ ']' :: '(' :: path ++ ')' :: t) =
      some (alt, path, t) := by
  have h1 := takeWhile_all_append (p := fun c => c ≠ ']')
    (u := alt) (fun c hc => by simp; exact fun he => halt (he ▸ hc))
    (v := ']') (by simp) ('(' :: (path ++ ')' :: t))
  have h2 := takeWhile_all_append (p := fun c => c ≠ ')')
    (u := path) (fun c hc => by simp; exact fun he => hpar (he ▸ hc))
    (v := ')') (by simp) t
  simp only [ne_eq, decide_not] at h1 h2
  simp [tryImage, h1.1, h1.2, h2.1, h2.2, hpath]

theorem tryLink_render {alt path : List Char} (halt : ']' ∉ alt)
    (hpath : path ≠ []) (hpar : ')' ∉ path) (t : List Char) :
    tryLink ('[' :: alt ++ ']' :: '(' :: path ++ ')' :: t) =
      some (alt, path, t) := by
  have h1 := takeWhile_all_append (p := fun c => c ≠ ']')
    (u := alt) (fun c hc => by simp; exact fun he => halt (he ▸ hc))
    (v := ']') (by simp) ('(' :: (path ++ ')' :: t))
  have h2 := takeWhile_all_append (p := fun c => c ≠ ')')
    (u := path) (fun c hc => by simp; exact fun he => hpar (he ▸ hc))
    (v := ')') (by simp) t
  simp only [ne_eq, decide_not] at h1 h2
  simp [tryLink, h1.1, h1.2, h2.1, h2.2, hpath]

/-- Every successful image match decomposes the input and constrains the
captured groups exactly as the regex does. -/
theorem tryImage_some {s alt path rest : List Char}
    (h : tryImage s = some (alt, path, rest)) :
    s = '!' :: '[' :: alt ++ ']' :: '(' :: path ++ ')' :: rest ∧
    ']' ∉ alt ∧ ')' ∉ path ∧ path ≠ [] := by
  unfold tryImage at h
  split at h
  case _ c1 c2 r =>
    split at h
    case isFalse => exact Option.noConfusion h
    case isTrue hcc =>
      obtain ⟨rfl, rfl⟩ := hcc
      split at h
      case _ d1 d2 rest2 heq =>
        split at h
        case isFalse => exact Option.noConfusion h
        case isTrue hdd =>
          obtain ⟨rfl, rfl⟩ := hdd
          split at h
          case isTrue => exact Option.noConfusion h
          case isFalse hemp =>
            split at h
            case _ e1 r3 heq2 =>
              split at h
              case isFalse => exact Option.noConfusion h
              case isTrue he =>
                subst he
                simp only [Option.some_inj, Prod.mk.injEq] at h
                obtain ⟨ha, hp, hr⟩ := h
                subst ha hp hr
                have e1 : r.takeWhile (fun c => c ≠ ']') ++
                    r.dropWhile (fun c => c ≠ ']') = r :=
                  List.takeWhile_append_dropWhile _ _
                have e2 : rest2.takeWhile (fun c => c ≠ ')') ++
                    rest2.dropWhile (fun c => c ≠ ')') = rest2 :=
                  List.takeWhile_append_dropWhile _ _
                have hrest2 : rest2 =
                    rest2.takeWhile (fun c => c ≠ ')') ++ ')' :: r3 := by
                  conv_lhs => rw [← e2]
                  rw [heq2]
                have hr2 : r =
                    r.takeWhile (fun c => c ≠ ']') ++ ']' :: '(' :: rest2 := by
                  conv_lhs => rw [← e1]
                  rw [heq]
                refine ⟨?_, ?_, ?_, ?_⟩
                · conv_lhs => rw [hr2]
                  conv_lhs => rw [hrest2]
                  simp
                · intro hc
                  have := List.mem_takeWhile_imp hc
                  simp at this
                · intro hc
                  have := List.mem_takeWhile_imp hc
                  simp at this
                · simpa using hemp
            case _ heq2 => exact Option.noConfusion h
      case _ hne heq => exact Option.noConfusion h
  case _ hne => exact Option.noConfusion h

/-- Every successful generic-link match decomposes the input likewise. -/
theorem tryLink_some {s alt path rest : List Char}
    (h : tryLink s = some (alt, path, rest)) :
    s = '[' :: alt ++ ']' :: '(' :: path ++ ')' :: rest ∧
    ']' ∉ alt ∧ ')' ∉ path ∧ path ≠ [] := by
  unfold tryLink at h
  split at h
  case _ c1 r =>
    split at h
    case isFalse => exact Option.noConfusion h
    case isTrue hcc =>
      subst hcc
      split at h
      case _ d1 d2 rest2 heq =>
        split at h
        case isFalse => exact Option.noConfusion h
        case isTrue hdd =>
          obtain ⟨rfl, rfl⟩ := hdd
          split at h
          case isTrue => exact Option.noConfusion h
          case isFalse hemp =>
            split at h
            case _ e1 r3 heq2 =>
              split at h
              case isFalse => exact Option.noConfusion h
              case isTrue he =>
                subst he
                simp only [Option.some_inj, Prod.mk.injEq] at h
                obtain ⟨ha, hp, hr⟩ := h
                subst ha hp hr
                have e1 : r.takeWhile (fun c => c ≠ ']') ++
                    r.dropWhile (fun c => c ≠ ']') = r :=
                  List.takeWhile_append_dropWhile _ _
                have e2 : rest2.takeWhile (fun c => c ≠ ')') ++
                    rest2.dropWhile (fun c => c ≠ ')') = rest2 :=
                  List.takeWhile_append_dropWhile _ _
                have hrest2 : rest2 =
                    rest2.takeWhile (fun c => c ≠ ')') ++ ')' :: r3 := by
                  conv_lhs => rw [← e2]
                  rw [heq2]
                have hr2 : r =
                    r.takeWhile (fun c => c ≠ ']') ++ ']' :: '(' :: rest2 := by
                  conv_lhs => rw [← e1]
                  rw [heq]
                refine ⟨?_, ?_, ?_, ?_⟩
                · conv_lhs => rw [hr2]
                  conv_lhs => rw [hrest2]
                  simp
                · intro hc
                  have := List.mem_takeWhile_imp hc
                  simp at this
                · intro hc
                  have := List.mem_takeWhile_imp hc
                  simp at this
                · simpa using hemp
            case _ heq2 => exact Option.noConfusion h
      case _ hne heq => exact Option.noConfusion h
  case _ => exact Option.noConfusion h

/-- Length of the remainder after a successful image match. -/
theorem tryImage_rest_length {s alt path rest : List Char}
    (h : tryImage s = some (alt, path, rest)) : rest.length < s.length := by
  have hd := (tryImage_some h).1
  rw [hd]
  simp [List.length_append]
  omega

/-- Length of the remainder after a successful generic-link match. -/
theorem tryLink_rest_length {s alt path rest : List Char}
    (h : tryLink s = some (alt, path, rest)) : rest.length < s.length := by
  have hd := (tryLink_some h).1
  rw [hd]
  simp [List.length_append]
  omega

/-- Python `s.replace(old, new)`: replace each non-overlapping occurrence,
left to right (with the Python convention for an empty needle). -/
def pyReplace : List Char → List Char → List Char → List Char
  | s, [], new => new ++ s.flatMap (fun c => c :: new)
  | [], _ :: _, _ => []
  | c :: cs, o :: os, new =>
    if listHasPre (o :: os) (c :: cs) then
      new ++ pyReplace ((c :: cs).drop (o :: os).length) (o :: os) new
    else c :: pyReplace cs (o :: os) new
termination_by s _ _ => s.length
decreasing_by
  · simp [List.length_drop]
    omega
  · simp

/-- `re.sub` with the image pattern and the replacement function of
`replace_links`: the whole match has `f` applied to its captured path and
is then rebuilt by a global string replace inside the match. -/
def subImage (f : List Char → List Char) : List Char → List Char
  | [] => []
  | c :: cs =>
    match h : tryImage (c :: cs) with
    | some (alt, path, rest) =>
      pyReplace ('!' :: '[' :: alt ++ ']' :: '(' :: path ++ [')']) path (f path) ++
        subImage f rest
    | none => c :: subImage f cs
termination_by s => s.length
decreasing_by
  · exact tryImage_rest_length h
  · simp

/-- `re.sub` with the generic-link pattern; `prev` is the character before
the current position, used for the `(?<!\!)` lookbehind. -/
def subLinkAux (f : List Char → List Char) : Option Char → List Char → List Char
  | _, [] => []
  | prev, c :: cs =>
    if prev = some '!' then c :: subLinkAux f (some c) cs
    else
      match h : tryLink (c :: cs) with
      | some (alt, path, rest) =>
        pyReplace ('[' :: alt ++ ']' :: '(' :: path ++ [')']) path (f path) ++
          subLinkAux f (some ')') rest
      | none => c :: subLinkAux f (some c) cs
termination_by _ s => s.length
decreasing_by
  · simp
  · exact tryLink_rest_length h
  · simp

/-- The paths captured by scanning with the image pattern (also the scan
done by the post-write validation of `replace_links`). -/
def imgPaths : List Char → List (List Char)
  | [] => []
  | c :: cs =>
    match h : tryImage (c :: cs) with
    | some (_, path, rest) => path :: imgPaths rest
    | none => imgPaths cs
termination_by s => s.length
decreasing_by
  · exact tryImage_rest_length h
  · simp

/-- The paths captured by scanning with the generic-link pattern. -/
def linkPathsAux : Option Char → List Char → List (List Char)
  | _, [] => []
  | prev, c :: cs =>
    if prev = some '!' then linkPathsAux (some c) cs
    else
      match h : tryLink (c :: cs) with
      | some (_, path, rest) => path :: linkPathsAux (some ')') rest
      | none => linkPathsAux (some c) cs
termination_by _ s => s.length
decreasing_by
  · simp
  · exact tryLink_rest_length h
  · simp

/-- The full text rewrite of `replace_links`: first the image pattern, then
the generic-link pattern, each captured path going through
`rewrite_path`. -/
def replaceLinksText (old_dirnames : List (List Char)) (rel_to_imgs : List Char)
    (text : List Char) : List Char :=
  subLinkAux (rewrite_path old_dirnames rel_to_imgs) none
    (subImage (rewrite_path old_dirnames rel_to_imgs) text)

/-- Observable outcome of one `replace_links(md_path, old_dirnames,
new_img_dir_abs)` call: the content written to the `.bak` file, the content
written back to the document, and the missing-image warning (paths shown,
truncation marker). -/
structure ReplaceOutcome where
  bakContent : List Char
  written : List Char
  warnShown : List (List Char)
  warnTruncated : Bool

/-- `replace_links`: rewrite the text, back up the on-disk content, write
the new text, then scan the new text for image links whose decoded target
does not exist (`livesAt` is the file-existence test of the document's
directory) and report at most 10 of them. -/
def replace_links (old_dirnames : List (List Char)) (rel_to_imgs : List Char)
    (onDisk : List Char) (livesAt : List Char → Bool) : ReplaceOutcome :=
  let text2 := replaceLinksText old_dirnames rel_to_imgs onDisk
  let missing := ((imgPaths text2).map pyUnquote).filter (fun l => !livesAt l)
  ⟨onDisk, text2, missing.take 10, decide (10 < missing.length)⟩

/-! ### Claim C7: the post-write validation is advisory -/

/-- C7: the missing-image report shows at most 10 paths, signals truncation
exactly when more than 10 image links fail to resolve, and neither the
written content nor the backup depends on which files exist: validation
never aborts or reverts the write. -/
theorem C7_validation_advisory (old_dirnames : List (List Char))
    (rel onDisk : List Char) (livesAt : List Char → Bool) :
    (replace_links old_dirnames rel onDisk livesAt).warnShown.length ≤ 10 ∧
    ((replace_links old_dirnames rel onDisk livesAt).warnTruncated = true ↔
      10 < (((imgPaths (replaceLinksText old_dirnames rel onDisk)).map pyUnquote).filter
        (fun l => !livesAt l)).length) ∧
    (replace_links old_dirnames rel onDisk livesAt).written =
      replaceLinksText old_dirnames rel onDisk ∧
    (∀ livesAt2, (replace_links old_dirnames rel onDisk livesAt2).written =
      (replace_links old_dirnames rel onDisk livesAt).written) ∧
    (replace_links old_dirnames rel onDisk livesAt).bakContent = onDisk := by
  refine ⟨?_, ?_, rfl, fun _ => rfl, rfl⟩
  · show (List.take 10 _).length ≤ 10
    rw [List.length_take]
    omega
  · show decide _ = true ↔ _
    rw [decide_eq_true_iff]

/-! ### Claim C9: frame of `replace_links` -/

theorem rewrite_path_noMatch {old_dirnames : List (List Char)} {rel p : List Char}
    (h : (old_dirnames.any (fun od => pyIn od p || pyIn od (pyUnquote p))) = false) :
    rewrite_path old_dirnames rel p = p := by
  unfold rewrite_path
  rw [h]
  rfl

theorem pyReplace_self (old : List Char) : ∀ n s, s.length ≤ n →
    pyReplace s old old = s := by
  intro n
  induction n with
  | zero =>
    intro s hs
    have : s = [] := List.length_eq_zero.mp (Nat.le_zero.mp hs)
    subst this
    cases old with
    | nil => simp [pyReplace]
    | cons o os => simp [pyReplace]
  | succ n ih =>
    intro s hs
    cases old with
    | nil =>
      have he : pyReplace s [] [] = [] ++ s.flatMap (fun c => c :: ([] : List Char)) := by
        simp only [pyReplace]
      rw [he, List.nil_append]
      have hfn : (fun c : Char => c :: ([] : List Char)) = (fun c : Char => [c]) := rfl
      rw [hfn, List.flatMap_singleton']
    | cons o os =>
      cases s with
      | nil => simp [pyReplace]
      | cons c cs =>
        rw [pyReplace]
        by_cases hp : listHasPre (o :: os) (c :: cs)
        · rw [if_pos hp]
          obtain ⟨t, ht⟩ := (listHasPre_iff _ _).mp hp
          have hdrop : (c :: cs).drop (o :: os).length = t := by
            rw [← ht, List.drop_left]
          rw [hdrop, ih t (by
            have hlen := congrArg List.length ht
            have hs2 : cs.length + 1 ≤ n + 1 := by simpa using hs
            simp [List.length_append] at hlen
            omega)]
          exact ht
        · rw [if_neg hp]
          rw [ih cs (by simpa using hs)]

theorem imgPaths_cons_some {c : Char} {cs alt path rest : List Char}
    (h : tryImage (c :: cs) = some (alt, path, rest)) :
    imgPaths (c :: cs) = path :: imgPaths rest := by
  rw [imgPaths, h]

theorem imgPaths_cons_none {c : Char} {cs : List Char}
    (h : tryImage (c :: cs) = none) :
    imgPaths (c :: cs) = imgPaths cs := by
  rw [imgPaths, h]

theorem subImage_id (f : List Char → List Char) : ∀ n s, s.length ≤ n →
    (∀ p ∈ imgPaths s, f p = p) → subImage f s = s := by
  intro n
  induction n with
  | zero =>
    intro s hs _
    have : s = [] := List.length_eq_zero.mp (Nat.le_zero.mp hs)
    subst this
    simp [subImage]
  | succ n ih =>
    intro s hs hpaths
    cases s with
    | nil => simp [subImage]
    | cons c cs =>
      rw [subImage]
      cases htry : tryImage (c :: cs) with
      | some v =>
        obtain ⟨alt, path, rest⟩ := v
        simp only [htry]
        rw [imgPaths_cons_some htry] at hpaths
        have hf : f path = path := hpaths path (List.mem_cons_self _ _)
        rw [hf, pyReplace_self path _
          ('!' :: '[' :: alt ++ ']' :: '(' :: path ++ [')']) (Nat.le_refl _)]
        have hdec := (tryImage_some htry).1
        rw [ih rest (by
            have hlt := tryImage_rest_length htry
            have hs2 : cs.length + 1 ≤ n + 1 := by simpa using hs
            simp at hlt
            omega)
          (fun p hp => hpaths p (List.mem_cons_of_mem _ hp))]
        rw [hdec]
        simp
      | none =>
        simp only [htry]
        rw [imgPaths_cons_none htry] at hpaths
        rw [ih cs (by simpa using hs) hpaths]

theorem linkPaths_cons_skip {c : Char} {cs : List Char} :
    linkPathsAux (some '!') (c :: cs) = linkPathsAux (some c) cs := by
  rw [linkPathsAux]
  rw [if_pos rfl]

theorem linkPaths_cons_some {prev : Option Char} {c : Char}
    {cs alt path rest : List Char} (hprev : prev ≠ some '!')
    (h : tryLink (c :: cs) = some (alt, path, rest)) :
    linkPathsAux prev (c :: cs) = path :: linkPathsAux (some ')') rest := by
  rw [linkPathsAux, if_neg hprev, h]

theorem linkPaths_cons_none {prev : Option Char} {c : Char} {cs : List Char}
    (hprev : prev ≠ some '!') (h : tryLink (c :: cs) = none) :
    linkPathsAux prev (c :: cs) = linkPathsAux (some c) cs := by
  rw [linkPathsAux, if_neg hprev, h]

theorem subLinkAux_id (f : List Char → List Char) : ∀ n (prev : Option Char) s,
    s.length ≤ n → (∀ p ∈ linkPathsAux prev s, f p = p) →
    subLinkAux f prev s = s := by
  intro n
  induction n with
  | zero =>
    intro prev s hs _
    have : s = [] := List.length_eq_zero.mp (Nat.le_zero.mp hs)
    subst this
    simp [subLinkAux]
  | succ n ih =>
    intro prev s hs hpaths
    cases s with
    | nil => simp [subLinkAux]
    | cons c cs =>
      rw [subLinkAux]
      by_cases hprev : prev = some '!'
      · rw [if_pos hprev]
        subst hprev
        rw [linkPaths_cons_skip] at hpaths
        rw [ih (some c) cs (by simpa using hs) hpaths]
      · rw [if_neg hprev]
        cases htry : tryLink (c :: cs) with
        | some v =>
          obtain ⟨alt, path, rest⟩ := v
          simp only [htry]
          rw [linkPaths_cons_some hprev htry] at hpaths
          have hf : f path = path := hpaths path (List.mem_cons_self _ _)
          rw [hf, pyReplace_self path _
            ('[' :: alt ++ ']' :: '(' :: path ++ [')']) (Nat.le_refl _)]
          have hdec := (tryLink_some htry).1
          rw [ih (some ')') rest
            (by
              have hlt := tryLink_rest_length htry
              have hs2 : cs.length + 1 ≤ n + 1 := by simpa using hs
              simp at hlt
              omega)
            (fun p hp => hpaths p (List.mem_cons_of_mem _ hp))]
          rw [hdec]
          simp
        | none =>
          simp only [htry]
          rw [linkPaths_cons_none hprev htry] at hpaths
          rw [ih (some c) cs (by simpa using hs) hpaths]

/-- C9: `replace_links` always produces the `.bak` (holding the pre-call
on-disk content) and always rewrites the document; a link whose path (raw
or URL-decoded) contains no old-name variant is left unchanged, and when no
link in the document matches any variant the written content is
byte-identical to the original. -/
theorem C9_replace_links_frame (old_dirnames : List (List Char))
    (rel text : List Char) (livesAt : List Char → Bool) :
    (replace_links old_dirnames rel text livesAt).bakContent = text ∧
    (∀ p, (old_dirnames.any (fun od => pyIn od p || pyIn od (pyUnquote p))) = false →
      rewrite_path old_dirnames rel p = p) ∧
    ((∀ p ∈ imgPaths text,
        (old_dirnames.any (fun od => pyIn od p || pyIn od (pyUnquote p))) = false) →
     (∀ p ∈ linkPathsAux none text,
        (old_dirnames.any (fun od => pyIn od p || pyIn od (pyUnquote p))) = false) →
     (replace_links old_dirnames rel text livesAt).written = text) := by
  refine ⟨rfl, fun p hp => rewrite_path_noMatch hp, ?_⟩
  intro himg hlink
  show replaceLinksText old_dirnames rel text = text
  unfold replaceLinksText
  rw [subImage_id _ text.length text (Nat.le_refl _)
    (fun p hp => rewrite_path_noMatch (himg p hp))]
  rw [subLinkAux_id _ text.length none text (Nat.le_refl _)
    (fun p hp => rewrite_path_noMatch (hlink p hp))]

/-- Concrete application of the C9 frame property: on a two-character
document with no links, the backup holds the original and the written
content is byte-identical to it. -/
theorem C9_witness :
    (replace_links [['o', 'l', 'd']] ['r', 'e', 'l'] ['a', 'b']
      (fun _ => false)).written = ['a', 'b'] ∧
    (replace_links [['o', 'l', 'd']] ['r', 'e', 'l'] ['a', 'b']
      (fun _ => false)).bakContent = ['a', 'b'] := by
  have h := C9_replace_links_frame [['o', 'l', 'd']] ['r', 'e', 'l'] ['a', 'b']
    (fun _ => false)
  have himg : imgPaths ['a', 'b'] = [] := by
    rw [imgPaths_cons_none (by decide), imgPaths_cons_none (by decide)]
    simp [imgPaths]
  have hlinks : linkPathsAux none ['a', 'b'] = [] := by
    rw [linkPaths_cons_none (by decide) (by decide),
      linkPaths_cons_none (by decide) (by decide)]
    simp [linkPathsAux]
  refine ⟨h.2.2 ?_ ?_, h.1⟩
  · intro p hp
    rw [himg] at hp
    exact absurd hp (List.not_mem_nil p)
  · intro p hp
    rw [hlinks] at hp
    exact absurd hp (List.not_mem_nil p)

/-! ### Claim C2: documents as link chunks -/

/-- A markdown document decomposed into literal text and image links. -/
inductive Chunk where
  | plain (s : List Char)
  | img (alt path : List Char)
deriving DecidableEq

/-- The text of a chunk. -/
def renderChunk : Chunk → List Char
  | Chunk.plain s => s
  | Chunk.img alt path => '!' :: '[' :: alt ++ ']' :: '(' :: path ++ [')']

/-- The text of a whole document. -/
def renderDoc (chunks : List Chunk) : List Char := chunks.flatMap renderChunk

/-- Apply a path rewrite to each image link. -/
def rwChunk (f : List Char → List Char) : Chunk → Chunk
  | Chunk.plain s => Chunk.plain s
  | Chunk.img alt path => Chunk.img alt (f path)

/-- The captured path must not reoccur starting inside the leading
`![alt](` part of the match, since the `str.replace` of `repl` would also
rewrite such an occurrence. -/
def noStraddle (alt path : List Char) : Bool :=
  (List.range ('!' :: '[' :: alt ++ [']', '(']).length).all
    (fun i => !listHasPre path
      ((('!' :: '[' :: alt ++ [']', '(']) ++ (path ++ [')'])).drop i))

/-- Well-formedness of a chunk: literal text holds no `[`; an image link is
exactly one match of the image pattern, with the captured path reoccurring
only at its own spot. -/
def wfChunk : Chunk → Bool
  | Chunk.plain s => decide ('[' ∉ s)
  | Chunk.img alt path =>
    decide (']' ∉ alt) && decide ('[' ∉ alt) && decide (')' ∉ path) &&
    decide ('[' ∉ path) && !path.isEmpty && noStraddle alt path

theorem pyReplace_nil (o : Char) (os new : List Char) :
    pyReplace [] (o :: os) new = [] := by
  simp [pyReplace]

theorem pyReplace_cons_pos {o c : Char} {os cs : List Char} (new : List Char)
    (h : listHasPre (o :: os) (c :: cs) = true) :
    pyReplace (c :: cs) (o :: os) new =
      new ++ pyReplace ((c :: cs).drop (o :: os).length) (o :: os) new := by
  rw [pyReplace, if_pos h]

theorem pyReplace_cons_neg {o c : Char} {os cs : List Char} (new : List Char)
    (h : listHasPre (o :: os) (c :: cs) = false) :
    pyReplace (c :: cs) (o :: os) new = c :: pyReplace cs (o :: os) new := by
  rw [pyReplace, if_neg (by simp [h])]

theorem pyReplace_skip (o : Char) (os new : List Char) :
    ∀ (pre s : List Char),
    (∀ i, i < pre.length → listHasPre (o :: os) ((pre ++ s).drop i) = false) →
    pyReplace (pre ++ s) (o :: os) new = pre ++ pyReplace s (o :: os) new := by
  intro pre
  induction pre with
  | nil => intro s _; rw [List.nil_append, List.nil_append]
  | cons c pre2 ih =>
    intro s h
    have h0 : listHasPre (o :: os) (c :: (pre2 ++ s)) = false := by
      have := h 0 (Nat.succ_pos _)
      simpa using this
    rw [List.cons_append, pyReplace_cons_neg new h0]
    rw [ih s (fun i hi => by
      have := h (i + 1) (by simpa using Nat.succ_lt_succ hi)
      simpa using this)]
    rfl

theorem pyReplace_head (o : Char) (os s new : List Char) :
    pyReplace ((o :: os) ++ s) (o :: os) new = new ++ pyReplace s (o :: os) new := by
  have hp : listHasPre (o :: os) (o :: (os ++ s)) = true := by
    rw [listHasPre_iff, ← List.cons_append]
    exact List.prefix_append _ _
  rw [List.cons_append, pyReplace_cons_pos new hp]
  rw [show (o :: (os ++ s)).drop (o :: os).length = s from by
    rw [← List.cons_append, List.drop_left]]

theorem listHasPre_rpar {o : Char} {os : List Char} (h : ')' ∉ o :: os) :
    listHasPre (o :: os) [')'] = false := by
  cases hpre : listHasPre (o :: os) [')'] with
  | false => rfl
  | true =>
    obtain ⟨t, ht⟩ := (listHasPre_iff _ _).mp hpre
    rw [List.cons_append] at ht
    injection ht with h1 _
    subst h1
    exact absurd (List.mem_cons_self _ _) h

theorem pyReplace_match (alt : List Char) {path : List Char} (new : List Char)
    (hpar : ')' ∉ path) (hne : path ≠ []) (hstr : noStraddle alt path = true) :
    pyReplace ('!' :: '[' :: alt ++ ']' :: '(' :: path ++ [')']) path new =
      '!' :: '[' :: alt ++ ']' :: '(' :: new ++ [')'] := by
  cases path with
  | nil => exact absurd rfl hne
  | cons o os =>
    have hsplit : ('!' :: '[' :: alt ++ ']' :: '(' :: (o :: os) ++ [')'])
        = ('!' :: '[' :: alt ++ [']', '(']) ++ ((o :: os) ++ [')']) := by
      simp
    rw [hsplit]
    rw [pyReplace_skip o os new _ _ (fun i hi => by
      have hm := List.all_eq_true.mp hstr i (List.mem_range.mpr hi)
      simpa using hm)]
    rw [pyReplace_head]
    rw [show ([')'] : List Char) = ')' :: [] from rfl,
      pyReplace_cons_neg new (listHasPre_rpar hpar), pyReplace_nil]
    simp

theorem tryImage_not_bang {c1 c2 : Char} (r : List Char)
    (h : ¬(c1 = '!' ∧ c2 = '[')) : tryImage (c1 :: c2 :: r) = none := by
  simp [tryImage, h]

theorem subImage_nil (f : List Char → List Char) : subImage f [] = [] := by
  simp [subImage]

theorem subImage_cons_some {f : List Char → List Char} {c : Char}
    {cs alt path rest : List Char}
    (h : tryImage (c :: cs) = some (alt, path, rest)) :
    subImage f (c :: cs) =
      pyReplace ('!' :: '[' :: alt ++ ']' :: '(' :: path ++ [')']) path (f path) ++
        subImage f rest := by
  rw [subImage, h]

theorem subImage_cons_none {f : List Char → List Char} {c : Char} {cs : List Char}
    (h : tryImage (c :: cs) = none) :
    subImage f (c :: cs) = c :: subImage f cs := by
  rw [subImage, h]

theorem subImage_plain (f : List Char → List Char) :
    ∀ (u v : List Char), '[' ∉ u → (∀ t, v ≠ '[' :: t) →
    subImage f (u ++ v) = u ++ subImage f v := by
  intro u
  induction u with
  | nil => intro v _ _; rw [List.nil_append, List.nil_append]
  | cons c u2 ih =>
    intro v hu hv
    rw [List.cons_append]
    have hnone : tryImage (c :: (u2 ++ v)) = none := by
      cases u2 with
      | cons c2 u3 =>
        rw [List.cons_append]
        refine tryImage_not_bang _ (fun hcc => ?_)
        obtain ⟨-, h2⟩ := hcc
        subst h2
        exact hu (List.mem_cons_of_mem _ (List.mem_cons_self _ _))
      | nil =>
        rw [List.nil_append]
        cases v with
        | nil => rfl
        | cons d vs =>
          refine tryImage_not_bang _ (fun hcc => ?_)
          exact hv vs (by rw [hcc.2])
    rw [subImage_cons_none hnone]
    rw [ih v (fun hm => hu (List.mem_cons_of_mem _ hm)) hv]
    rfl

theorem renderDoc_cons (ch : Chunk) (chunks : List Chunk) :
    renderDoc (ch :: chunks) = renderChunk ch ++ renderDoc chunks := by
  simp [renderDoc]

theorem renderDoc_no_lb_head : ∀ (chunks : List Chunk),
    (∀ ch ∈ chunks, wfChunk ch = true) →
    ∀ t, renderDoc chunks ≠ '[' :: t := by
  intro chunks
  induction chunks with
  | nil =>
    intro _ t h
    simp [renderDoc] at h
  | cons ch rest ih =>
    intro hwf t h
    rw [renderDoc_cons] at h
    cases ch with
    | plain s =>
      cases s with
      | nil =>
        rw [show renderChunk (Chunk.plain []) = [] from rfl, List.nil_append] at h
        exact ih (fun c hc => hwf c (List.mem_cons_of_mem _ hc)) t h
      | cons a s2 =>
        have ha : '[' ∉ a :: s2 := by
          have := hwf _ (List.mem_cons_self _ _)
          simpa [wfChunk] using this
        rw [show renderChunk (Chunk.plain (a :: s2)) = a :: s2 from rfl,
          List.cons_append] at h
        injection h with h1 _
        subst h1
        exact ha (List.mem_cons_self _ _)
    | img alt path =>
      rw [show renderChunk (Chunk.img alt path)
          = '!' :: '[' :: alt ++ ']' :: '(' :: path ++ [')'] from rfl,
        List.cons_append] at h
      injection h with h1 _
      exact absurd h1 (by decide)

theorem subImage_chunks (f : List Char → List Char) :
    ∀ (chunks : List Chunk), (∀ ch ∈ chunks, wfChunk ch = true) →
    subImage f (renderDoc chunks) = renderDoc (chunks.map (rwChunk f)) := by
  intro chunks
  induction chunks with
  | nil =>
    intro _
    simp [renderDoc, subImage]
  | cons ch rest ih =>
    intro hwf
    have hwfr := fun c hc => hwf c (List.mem_cons_of_mem _ hc)
    have hwfc := hwf ch (List.mem_cons_self _ _)
    rw [renderDoc_cons, List.map_cons, renderDoc_cons]
    cases ch with
    | plain s =>
      have hs : '[' ∉ s := by simpa [wfChunk] using hwfc
      rw [show renderChunk (Chunk.plain s) = s from rfl,
        show rwChunk f (Chunk.plain s) = Chunk.plain s from rfl,
        show renderChunk (Chunk.plain s) = s from rfl]
      rw [subImage_plain f s (renderDoc rest) hs
        (fun t => renderDoc_no_lb_head rest hwfr t)]
      rw [ih hwfr]
    | img alt path =>
      simp only [wfChunk, Bool.and_eq_true, decide_eq_true_eq,
        Bool.not_eq_true', List.isEmpty_eq_false] at hwfc
      obtain ⟨⟨⟨⟨⟨h1, h2⟩, h3⟩, h4⟩, h5⟩, h6⟩ := hwfc
      have htryi := tryImage_render h1 h5 h3 (renderDoc rest)
      simp only [List.cons_append, List.append_assoc] at htryi
      have hshape : renderChunk (Chunk.img alt path) ++ renderDoc rest =
          '!' :: '[' :: (alt ++ (']' :: '(' :: (path ++ (')' :: renderDoc rest)))) := by
        simp [renderChunk]
      rw [hshape]
      rw [subImage_cons_some htryi]
      rw [pyReplace_match alt (f path) h3 h5 h6]
      rw [ih hwfr]
      simp [renderChunk, rwChunk]

/-- Every position of the text where `[` occurs is directly preceded by
`!`, given the character `prev` preceding the text itself. -/
def noBareLB : Option Char → List Char → Bool
  | _, [] => true
  | prev, c :: cs =>
    (if c = '[' then decide (prev = some '!') else true) && noBareLB (some c) cs

theorem noBareLB_of_no_lb : ∀ (s : List Char), '[' ∉ s →
    ∀ prev, noBareLB prev s = true := by
  intro s
  induction s with
  | nil => intro _ prev; rfl
  | cons c cs ih =>
    intro h prev
    have hc : ¬ c = '[' := fun he => h (by rw [← he]; exact List.mem_cons_self c cs)
    rw [noBareLB, if_neg hc, Bool.true_and]
    exact ih (fun hm => h (List.mem_cons_of_mem _ hm)) (some c)

theorem noBareLB_append : ∀ (u v : List Char), (∀ q, noBareLB q v = true) →
    ∀ prev, noBareLB prev u = true → noBareLB prev (u ++ v) = true := by
  intro u
  induction u with
  | nil => intro v hv prev _; exact hv prev
  | cons c u2 ih =>
    intro v hv prev hu
    rw [List.cons_append]
    rw [noBareLB, Bool.and_eq_true] at hu ⊢
    exact ⟨hu.1, ih v hv (some c) hu.2⟩

theorem subLinkAux_noBare (f : List Char → List Char) : ∀ n (prev : Option Char) s,
    s.length ≤ n → noBareLB prev s = true → subLinkAux f prev s = s := by
  intro n
  induction n with
  | zero =>
    intro prev s hs _
    have : s = [] := List.length_eq_zero.mp (Nat.le_zero.mp hs)
    subst this
    simp [subLinkAux]
  | succ n ih =>
    intro prev s hs hnb
    cases s with
    | nil => simp [subLinkAux]
    | cons c cs =>
      rw [noBareLB, Bool.and_eq_true] at hnb
      obtain ⟨hg, ht⟩ := hnb
      rw [subLinkAux]
      by_cases hp : prev = some '!'
      · rw [if_pos hp, ih (some c) cs (by simpa using hs) ht]
      · rw [if_neg hp]
        have hc : ¬ c = '[' := fun he => hp (by
          rw [if_pos he] at hg
          exact of_decide_eq_true hg)
        cases htry : tryLink (c :: cs) with
        | some v =>
          obtain ⟨alt, path, rest⟩ := v
          have hdec := (tryLink_some htry).1
          injection hdec with hd1 _
          exact absurd hd1 hc
        | none =>
          simp only [htry]
          rw [ih (some c) cs (by simpa using hs) ht]

theorem hexDigitU_ne_lb {n : Nat} (h : n < 16) : ¬ hexDigitU n = '[' := by
  interval_cases n <;> decide

theorem pyQuote_no_lb (s : List Char) : '[' ∉ pyQuote s := by
  intro hmem
  rw [pyQuote] at hmem
  obtain ⟨c, hc, hmem2⟩ := List.mem_flatMap.mp hmem
  unfold pyQuoteChar at hmem2
  by_cases hq : quoteSafe c
  · rw [if_pos hq] at hmem2
    simp only [List.mem_singleton] at hmem2
    rw [← hmem2] at hq
    exact absurd hq (by decide)
  · rw [if_neg hq] at hmem2
    obtain ⟨b, hb, hmem3⟩ := List.mem_flatMap.mp hmem2
    have hb256 := utf8Bytes_lt256 c b hb
    unfold escByte at hmem3
    simp only [List.mem_cons, List.not_mem_nil, or_false] at hmem3
    rcases hmem3 with h | h | h
    · exact absurd h (by decide)
    · exact absurd h.symm (hexDigitU_ne_lb (by omega))
    · exact absurd h.symm (hexDigitU_ne_lb (by omega))

theorem rewrite_path_no_lb (old_dirnames : List (List Char)) (rel : List Char) :
    ∀ p, '[' ∉ p → '[' ∉ rewrite_path old_dirnames rel p := by
  intro p hp
  unfold rewrite_path
  split
  · exact hp
  · split
    · exact hp
    · exact pyQuote_no_lb _

theorem noBareLB_rwDoc (f : List Char → List Char)
    (hf : ∀ p, '[' ∉ p → '[' ∉ f p) :
    ∀ (chunks : List Chunk), (∀ ch ∈ chunks, wfChunk ch = true) →
    ∀ prev, noBareLB prev (renderDoc (chunks.map (rwChunk f))) = true := by
  intro chunks
  induction chunks with
  | nil =>
    intro _ prev
    rfl
  | cons ch rest ih =>
    intro hwf prev
    rw [List.map_cons, renderDoc_cons]
    apply noBareLB_append _ _ (ih (fun c hc => hwf c (List.mem_cons_of_mem _ hc)))
    have hwfc := hwf ch (List.mem_cons_self _ _)
    cases ch with
    | plain s =>
      have hs : '[' ∉ s := by simpa [wfChunk] using hwfc
      exact noBareLB_of_no_lb s hs prev
    | img alt path =>
      simp only [wfChunk, Bool.and_eq_true, decide_eq_true_eq,
        Bool.not_eq_true', List.isEmpty_eq_false] at hwfc
      obtain ⟨⟨⟨⟨⟨-, h2⟩, -⟩, h4⟩, -⟩, -⟩ := hwfc
      have hno : '[' ∉ ((alt ++ (']' :: '(' :: f path)) ++ ([')'] : List Char)) := by
        intro hm
        rcases List.mem_append.mp hm with h | h
        · rcases List.mem_append.mp h with h | h
          · exact h2 h
          · simp only [List.mem_cons] at h
            rcases h with h | h | h
            · exact absurd h (by decide)
            · exact absurd h (by decide)
            · exact hf path h4 h
        · simp only [List.mem_singleton] at h
          exact absurd h (by decide)
      show noBareLB prev
        ('!' :: '[' :: ((alt ++ (']' :: '(' :: f path)) ++ ([')'] : List Char))) = true
      rw [noBareLB, noBareLB]
      rw [if_neg (by decide), if_pos rfl,
        noBareLB_of_no_lb _ hno (some '[')]
      simp

theorem replaceLinksText_chunks (old_dirnames : List (List Char)) (rel : List Char)
    (chunks : List Chunk) (hwf : ∀ ch ∈ chunks, wfChunk ch = true) :
    replaceLinksText old_dirnames rel (renderDoc chunks) =
      renderDoc (chunks.map (rwChunk (rewrite_path old_dirnames rel))) := by
  unfold replaceLinksText
  rw [subImage_chunks _ chunks hwf]
  exact subLinkAux_noBare _
    (renderDoc (chunks.map (rwChunk (rewrite_path old_dirnames rel)))).length
    none _ (Nat.le_refl _)
    (noBareLB_rwDoc _ (rewrite_path_no_lb old_dirnames rel) chunks hwf none)

/-- The document of the C2 counterexample: one image link whose path has
the old folder name as its first segment and a space in its second. -/
def docC2 : List Chunk :=
  [Chunk.plain (S "see "), Chunk.img (S "x") (S "old/a b.png"),
    Chunk.plain (S " end")]

/-- C2: counterexample to byte-identity of the remaining segments.  In a
document whose single image link is `![x](old/a b.png)` (first segment the
old folder name `old`, second segment `a b.png`), `replace_links` with new
relative folder `new` rewrites the link to `![x](new/a%20b.png)`: the first
segment is replaced as claimed, but the remaining segment comes out as
`a%20b.png`, which is not byte-identical to `a b.png`. -/
theorem C2_counterexample :
    replaceLinksText [S "old"] (S "new") (renderDoc docC2) =
      renderDoc [Chunk.plain (S "see "), Chunk.img (S "x") (S "new/a%20b.png"),
        Chunk.plain (S " end")] ∧
    pathParts (S "old/a b.png") = [S "old", S "a b.png"] ∧
    pathParts (S "new/a%20b.png") = [S "new", S "a%20b.png"] ∧
    S "a%20b.png" ≠ S "a b.png" := by
  refine ⟨?_, by decide, by decide, by decide⟩
  rw [replaceLinksText_chunks _ _ docC2 (by decide)]
  decide

/-- C2 (amended): on a document made of well-formed chunks (literal text
without `[`, image links that are single matches of the image pattern),
the rewrite maps each image link's path through `rewrite_path` and leaves
all literal text unchanged; and every path in which some old-name variant
occurs (raw or decoded) has its decoded first segment replaced by the new
relative folder path, the remaining *decoded* segments being preserved:
the rewritten path is the quote of `rel/seg1/.../segN`, and decoding the
rewritten path gives back exactly `rel/seg1/.../segN`.  Segments are
preserved only up to URL re-encoding, not byte-identically. -/
theorem C2_rewrite_amended (old_dirnames : List (List Char)) (rel : List Char)
    (chunks : List Chunk) (hwf : ∀ ch ∈ chunks, wfChunk ch = true) :
    replaceLinksText old_dirnames rel (renderDoc chunks) =
      renderDoc (chunks.map (rwChunk (rewrite_path old_dirnames rel))) ∧
    ∀ p seg0 parts2,
      (old_dirnames.any (fun od => pyIn od p || pyIn od (pyUnquote p))) = true →
      pathParts (pyUnquote p) = seg0 :: parts2 →
      rewrite_path old_dirnames rel p =
        pyQuote (List.intercalate ['/'] (rel :: parts2)) ∧
      pyUnquote (rewrite_path old_dirnames rel p) =
        List.intercalate ['/'] (rel :: parts2) := by
  refine ⟨replaceLinksText_chunks _ _ _ hwf, ?_⟩
  intro p seg0 parts2 hguard hparts
  have h1 : rewrite_path old_dirnames rel p =
      pyQuote (List.intercalate ['/'] (rel :: parts2)) := by
    unfold rewrite_path
    rw [hguard, hparts]
    rw [if_neg (by decide)]
  refine ⟨h1, ?_⟩
  rw [h1, pyUnquote_pyQuote]

/-- Concrete application of the amended C2 statement. -/
theorem C2_witness :
    replaceLinksText [S "old"] (S "new") (renderDoc docC2) =
      S "see ![x](new/a%20b.png) end" ∧
    rewrite_path [S "old"] (S "new") (S "old/a b.png") =
      pyQuote (List.intercalate ['/'] [S "new", S "a b.png"]) := by
  have h := C2_rewrite_amended [S "old"] (S "new") docC2 (by decide)
  refine ⟨?_, ?_⟩
  · rw [h.1]
    decide
  · exact (h.2 (S "old/a b.png") (S "old") [S "a b.png"] (by decide) (by decide)).1

end NotionClean
